import Mathlib

/-!
Verification development for the image-comparison core of the KENBAN
repository (`src/src-tauri/src/lib.rs`).  The Rust source is embedded
shallowly: RGBA byte buffers become functions `Nat → Nat` (index to byte
value), machine integers become `Nat`/`Int`, the `f64` marker geometry
becomes exact rational arithmetic over `ℚ`, and fallible code returns
`Except`.  Definitions mirror the corresponding Rust functions and keep
their names where possible.
-/

namespace Kenban

/-- A differing pixel `(x, y)`, mirroring `struct DiffPixel` (lib.rs:843). -/
structure DiffPixel where
  x : Nat
  y : Nat
deriving DecidableEq, Repr

/-- A cluster marker, mirroring `struct DiffMarker` (lib.rs:502).  The Rust
`f64` fields are modelled as exact rationals; every value actually produced
by `cluster_markers` is a multiple of `1/2` of magnitude far below `2^53`,
so `f64` arithmetic on them is exact and agrees with `ℚ`. -/
structure DiffMarker where
  x : ℚ
  y : ℚ
  radius : ℚ
  count : Nat
deriving DecidableEq, Repr

/-- Per-pixel threshold test of `diff_simple_core` (lib.rs:869-873): the
channel-wise absolute differences of R, G, B at byte base index `i` are
compared against the threshold (`dr > threshold || dg > threshold ||
db > threshold`).  The Rust `i16` arithmetic never overflows for byte
inputs, so it is modelled with `Int` subtraction and `natAbs`. -/
def pixelExceeds (a b : Nat → Nat) (threshold : Nat) (i : Nat) : Bool :=
  let dr := ((a i : Int) - (b i : Int)).natAbs
  let dg := ((a (i+1) : Int) - (b (i+1) : Int)).natAbs
  let db := ((a (i+2) : Int) - (b (i+2) : Int)).natAbs
  decide (threshold < dr) || decide (threshold < dg) || decide (threshold < db)

/-- The point cloud produced by `diff_simple_core` (lib.rs:850-901): a
row-major scan of all pixels, emitting `(x, y)` whenever the threshold
test fires.  The Rust code processes rows in parallel and reassembles
them in row order, which is exactly this row-major order. -/
def diff_simple_pixels (a b : Nat → Nat) (width height threshold : Nat) :
    List DiffPixel :=
  (List.range height).flatMap fun y =>
    (List.range width).filterMap fun x =>
      if pixelExceeds a b threshold ((y * width + x) * 4) then
        some ⟨x, y⟩
      else
        none

/-- `diff_simple_core` (lib.rs:850-901), restricted to the two outputs the
claims are about: the diff count and the point cloud.  In the Rust code the
counter is incremented exactly when a pixel is pushed, so the count equals
the length of the point cloud; the colored diff buffer does not feed any
claim and is not modelled. -/
def diff_simple_core (a b : Nat → Nat) (width height threshold : Nat) :
    Nat × List DiffPixel :=
  let pixels := diff_simple_pixels a b width height threshold
  (pixels.length, pixels)

/-- A grid bucket of `cluster_markers` (lib.rs:1035-1057): grid coordinates,
pixel count, and the bounding box of the pixels hashed into the cell. -/
structure GridCell where
  gx : Nat
  gy : Nat
  count : Nat
  min_x : Nat
  max_x : Nat
  min_y : Nat
  max_y : Nat
deriving DecidableEq, Repr, Inhabited

/-- One step of the bucketing loop of `cluster_markers` (lib.rs:1046-1057):
look the cell `(x / g, y / g)` up (the Rust `HashMap` is modelled as an
association list in first-insertion order), create it for its first pixel,
and extend its count and bounding box.  `gx`/`gy` are `i32` in Rust but
always arise as `u32 / u32`, hence nonnegative, and are modelled as `Nat`. -/
def insertPixel (g : Nat) : List GridCell → DiffPixel → List GridCell
  | [], p => [⟨p.x / g, p.y / g, 1, p.x, p.x, p.y, p.y⟩]
  | c :: cs, p =>
    if c.gx = p.x / g ∧ c.gy = p.y / g then
      { c with count := c.count + 1,
               min_x := min c.min_x p.x, max_x := max c.max_x p.x,
               min_y := min c.min_y p.y, max_y := max c.max_y p.y } :: cs
    else
      c :: insertPixel g cs p

/-- The grid of `cluster_markers` after all pixels are bucketed
(lib.rs:1045-1059). -/
def bucketCells (g : Nat) (pixels : List DiffPixel) : List GridCell :=
  pixels.foldl (insertPixel g) []

/-- Read entry `i` of the union-find parent vector. -/
def parentGet (parent : List Nat) (i : Nat) : Nat :=
  parent.getD i i

/-- Write entry `i` of the union-find parent vector. -/
def parentSet (parent : List Nat) (i v : Nat) : List Nat :=
  parent.set i v

/-- `find` with path halving (lib.rs:1066-1072): follow parent pointers,
rewriting each visited entry to its grandparent.  The Rust loop terminates
because the parent vector stays a forest; the model makes the same chains
finite with a fuel bound of the number of cells, which a forest chain can
never exceed. -/
def findHalve : Nat → List Nat → Nat → List Nat × Nat
  | 0, parent, i => (parent, i)
  | fuel+1, parent, i =>
    let pi := parentGet parent i
    if pi = i then (parent, i)
    else
      let gpi := parentGet parent pi
      findHalve fuel (parentSet parent i gpi) gpi

/-- Chebyshev adjacency of two grid cells (lib.rs:1076-1078): grid
coordinates differing by at most 1 on each axis. -/
def cellsAdjacent (c d : GridCell) : Bool :=
  decide (((c.gx : Int) - d.gx).natAbs ≤ 1) &&
  decide (((c.gy : Int) - d.gy).natAbs ≤ 1)

/-- The union step for one cell pair `(i, j)` (lib.rs:1074-1086): if the
cells are adjacent, link the root of `i` under the root of `j`. -/
def unionStep (cells : List GridCell) (n : Nat) (parent : List Nat)
    (i j : Nat) : List Nat :=
  if cellsAdjacent (cells.getD i default) (cells.getD j default) then
    let r1 := findHalve n parent i
    let r2 := findHalve n r1.1 j
    if r1.2 ≠ r2.2 then parentSet r2.1 r1.2 r2.2 else r2.1
  else parent

/-- The full union-find pairing loop of `cluster_markers`
(lib.rs:1064-1086): all unordered pairs `i < j`. -/
def buildParent (cells : List GridCell) : List Nat :=
  let n := cells.length
  (List.range n).foldl
    (fun parent i =>
      (List.range (n - i - 1)).foldl
        (fun parent k => unionStep cells n parent i (i + 1 + k))
        parent)
    (List.range n)

/-- Aggregated data of one group (lib.rs:1089-1098): combined bounding box
and combined count, with the Rust initial accumulator
`(u32::MAX, 0, u32::MAX, 0, 0)`. -/
structure GroupAcc where
  min_x : Nat
  max_x : Nat
  min_y : Nat
  max_y : Nat
  count : Nat
deriving DecidableEq, Repr

/-- The Rust `or_insert` default accumulator `(u32::MAX, 0, u32::MAX, 0, 0)`. -/
def emptyGroup : GroupAcc := ⟨4294967295, 0, 4294967295, 0, 0⟩

/-- Merge one cell into a group accumulator (lib.rs:1093-1097). -/
def mergeGroup (g : GroupAcc) (c : GridCell) : GroupAcc :=
  ⟨min g.min_x c.min_x, max g.max_x c.max_x,
   min g.min_y c.min_y, max g.max_y c.max_y, g.count + c.count⟩

/-- Merge cell `c` into the group keyed by root `r` (lib.rs:1092-1097); the
Rust `HashMap` of groups is modelled as an association list in
first-insertion order. -/
def updateGroup : List (Nat × GroupAcc) → Nat → GridCell →
    List (Nat × GroupAcc)
  | [], r, c => [(r, mergeGroup emptyGroup c)]
  | (r', g) :: rest, r, c =>
    if r' = r then (r, mergeGroup g c) :: rest
    else (r', g) :: updateGroup rest r c

/-- One step of the per-root aggregation loop (lib.rs:1090-1098): find the
root of cell `i` (again with path halving) and fold the cell into that
root's group. -/
def aggregateStep (n : Nat) (st : List Nat × List (Nat × GroupAcc))
    (ic : Nat × GridCell) : List Nat × List (Nat × GroupAcc) :=
  let r := findHalve n st.1 ic.1
  (r.1, updateGroup st.2 r.2 ic.2)

/-- The per-root aggregation of `cluster_markers` (lib.rs:1089-1098). -/
def aggregateGroups (cells : List GridCell) : List (Nat × GroupAcc) :=
  ((cells.enum).foldl (aggregateStep cells.length) (buildParent cells, [])).2

/-- Marker construction from one surviving group (lib.rs:1102-1108):
bounding-box center, and radius
`max(min_radius, half-width + pad, half-height + pad)` with `pad = 100`
when `min_radius > 200` and `60` otherwise. -/
def markerOfGroup (min_radius : ℚ) (g : GroupAcc) : DiffMarker :=
  let cx := ((g.min_x : ℚ) + (g.max_x : ℚ)) / 2
  let cy := ((g.min_y : ℚ) + (g.max_y : ℚ)) / 2
  let pad : ℚ := if 200 < min_radius then 100 else 60
  let radius_x := ((g.max_x : ℚ) - (g.min_x : ℚ)) / 2 + pad
  let radius_y := ((g.max_y : ℚ) - (g.min_y : ℚ)) / 2 + pad
  ⟨cx, cy, max min_radius (max radius_x radius_y), g.count⟩

/-- Filter-and-map step of `cluster_markers` (lib.rs:1100-1110): drop groups
with count below `min_cluster`, emit a marker for the rest. -/
def markersOfGroups (min_cluster : Nat) (min_radius : ℚ)
    (gs : List GroupAcc) : List DiffMarker :=
  (gs.filter (fun g => min_cluster ≤ g.count)).map (markerOfGroup min_radius)

/-- Stable descending insertion by `count`, modelling the stable
`sort_by(|a, b| b.count.cmp(&a.count))` (lib.rs:1112). -/
def insertByCountDesc (m : DiffMarker) : List DiffMarker → List DiffMarker
  | [] => [m]
  | x :: xs =>
    if x.count < m.count then m :: x :: xs else x :: insertByCountDesc m xs

/-- Stable sort of the markers by `count` descending (lib.rs:1112). -/
def sortByCountDesc : List DiffMarker → List DiffMarker
  | [] => []
  | m :: ms => insertByCountDesc m (sortByCountDesc ms)

/-- `cluster_markers` (lib.rs:1027-1114): grid bucketing, union-find over
cells, per-root aggregation, filtering by `min_cluster`, marker emission,
and the final sort by count descending. -/
def cluster_markers (pixels : List DiffPixel) (grid_size : Nat)
    (min_cluster : Nat) (min_radius : ℚ) : List DiffMarker :=
  if pixels.isEmpty then []
  else
    let cells := bucketCells grid_size pixels
    if cells.isEmpty then []
    else
      let groups := aggregateGroups cells
      sortByCountDesc
        (markersOfGroups min_cluster min_radius (groups.map Prod.snd))

/-- The fields of the sharp-diff results that the claims are about,
mirroring `DiffCheckSimpleResult` (lib.rs:524-530); `DiffSimpleResult`
(lib.rs:511-520) carries the same fields plus encoded images. -/
structure DiffCheckSimpleResult where
  has_diff : Bool
  diff_count : Nat
  markers : List DiffMarker
  image_width : Nat
  image_height : Nat
deriving Repr

/-- The common tail of `compute_diff_simple` (lib.rs:1150-1174) and
`check_diff_simple` (lib.rs:1280-1293) after the two inputs have been
decoded and brought to the same dimensions: run the sharp diff, cluster
with the sharp preset `grid_size = 200`, `min_cluster = 1`,
`min_radius = 300`, and set `has_diff := diff_count > 0`. -/
def diff_simple_result (a b : Nat → Nat) (width height threshold : Nat) :
    DiffCheckSimpleResult :=
  let r := diff_simple_core a b width height threshold
  { has_diff := decide (0 < r.1),
    diff_count := r.1,
    markers := cluster_markers r.2 200 1 300,
    image_width := width,
    image_height := height }

/-! ### Concrete images for the two-cluster scenario (claim C1) -/

/-- A 400×400 all-black RGBA buffer: every alpha byte is 255, every color
byte is 0. -/
def blackBuf400 : Nat → Nat := fun i => if i % 4 = 3 then 255 else 0

/-- `blackBuf400` with two 10×10 white squares, one centered at `(50, 50)`
(pixels 45..54 on both axes) and one centered at `(350, 350)` (pixels
345..354). -/
def twoSquaresBuf400 : Nat → Nat := fun i =>
  if i % 4 = 3 then 255
  else
    let p := i / 4
    let x := p % 400
    let y := p / 400
    if (45 ≤ x ∧ x ≤ 54 ∧ 45 ≤ y ∧ y ≤ 54) ∨
       (345 ≤ x ∧ x ≤ 354 ∧ 345 ≤ y ∧ y ≤ 354) then 255
    else 0

/-! ### PackBits RLE decode (lib.rs:722-753)

Byte buffers are modelled as functions `Nat → Nat` from index to byte
value; a slice write becomes a pointwise function update, so that bytes
outside the destination window demonstrably keep their prior value. -/

/-- Pointwise update of a function buffer: write `v` at index `d`. -/
def writeByte (dst : Nat → Nat) (d v : Nat) : Nat → Nat :=
  fun i => if i = d then v else dst i

/-- Interpret a byte as Rust's `as i8` cast: values `0..=127` map to
themselves, `128..=255` to `-128..=-1`. -/
def toI8 (b : Nat) : Int :=
  if b % 256 < 128 then (b % 256 : Int) else (b % 256 : Int) - 256

/-- The literal-copy inner loop of `decode_packbits` (lib.rs:733-738):
`while d < endI && s < src_end { dst[d] = src[s]; d += 1; s += 1 }`.
Returns the updated destination and the number of bytes copied. -/
def copyLit (src : Nat → Nat) (src_end endI : Nat) (dst : Nat → Nat)
    (s d : Nat) : (Nat → Nat) × Nat :=
  if d < endI ∧ s < src_end then
    let r := copyLit src src_end endI (writeByte dst d (src s)) (s+1) (d+1)
    (r.1, r.2 + 1)
  else (dst, 0)
termination_by endI - d
decreasing_by omega

/-- The replicate inner loop of `decode_packbits` (lib.rs:745-748):
`while d < endI { dst[d] = val; d += 1 }`. -/
def fillRun (dst : Nat → Nat) (v : Nat) (endI d : Nat) : Nat → Nat :=
  if d < endI then fillRun (writeByte dst d v) v endI (d+1) else dst
termination_by endI - d
decreasing_by omega

/-- The outer loop of `decode_packbits` (lib.rs:727-752), recursing on the
source cursor `s` and destination cursor `d`: read a signed header byte,
then literal-copy, replicate, or skip (`-128`). -/
def packbitsLoop (src : Nat → Nat) (src_end dst_end : Nat)
    (dst : Nat → Nat) (s d : Nat) : Nat → Nat :=
  if hs : d < dst_end ∧ s < src_end then
    let n := toI8 (src s)
    if 0 ≤ n then
      let count := n.toNat + 1
      let endI := min (d + count) dst_end
      let r := copyLit src src_end endI dst (s+1) d
      packbitsLoop src src_end dst_end r.1 (s + 1 + r.2) (d + r.2)
    else if -128 < n then
      let count := (1 - n).toNat
      if s + 1 < src_end then
        let v := src (s+1)
        let endI := min (d + count) dst_end
        packbitsLoop src src_end dst_end (fillRun dst v endI d) (s+2) endI
      else dst
    else
      packbitsLoop src src_end dst_end dst (s+1) d
  else dst
termination_by src_end - s
decreasing_by
  · exact Nat.sub_lt_sub_left hs.2 (by omega)
  · exact Nat.sub_lt_sub_left hs.2 (by omega)
  · exact Nat.sub_lt_sub_left hs.2 (by omega)

/-- `decode_packbits` (lib.rs:722-753): decode the source window
`[src_start, src_start + src_len)` into the destination window
`[dst_start, dst_start + dst_len)`. -/
def decode_packbits (src : Nat → Nat) (src_start src_len : Nat)
    (dst : Nat → Nat) (dst_start dst_len : Nat) : Nat → Nat :=
  packbitsLoop src (src_start + src_len) (dst_start + dst_len) dst
    src_start dst_start

/-- Bulk write of `k` bytes starting at `d`, taking byte `j` of the run
from `f j`.  Used by the specification-level PackBits semantics. -/
def writeRange (dst : Nat → Nat) (d k : Nat) (f : Nat → Nat) : Nat → Nat :=
  fun i => if d ≤ i ∧ i < d + k then f (i - d) else dst i

/-- PackBits semantics as the specification states them (§4.B): interpret
each header byte `n` as signed 8-bit; for `n ≥ 0` copy the next `n + 1`
literal bytes, for `-127 ≤ n ≤ -1` replicate the next byte `1 - n` times,
for `n = -128` do nothing; stop as soon as either window is exhausted,
truncating at the destination boundary.  Runs are written as bulk writes
of the exact number of bytes transferred. -/
def packbitsSpecLoop (src : Nat → Nat) (src_end dst_end : Nat)
    (dst : Nat → Nat) (s d : Nat) : Nat → Nat :=
  if d < dst_end ∧ s < src_end then
    let n := toI8 (src s)
    if 0 ≤ n then
      let k := min (n.toNat + 1) (min (src_end - (s+1)) (dst_end - d))
      packbitsSpecLoop src src_end dst_end
        (writeRange dst d k (fun j => src (s + 1 + j))) (s + 1 + k) (d + k)
    else if n = -128 then
      packbitsSpecLoop src src_end dst_end dst (s+1) d
    else
      if s + 1 < src_end then
        let k := min (1 - n).toNat (dst_end - d)
        packbitsSpecLoop src src_end dst_end
          (writeRange dst d k (fun _ => src (s+1))) (s+2) (d+k)
      else dst
  else dst
termination_by src_end - s
decreasing_by all_goals omega

/-- The specification-level PackBits decoder (§4.B of the spec). -/
def packbits_spec (src : Nat → Nat) (src_start src_len : Nat)
    (dst : Nat → Nat) (dst_start dst_len : Nat) : Nat → Nat :=
  packbitsSpecLoop src (src_start + src_len) (dst_start + dst_len) dst
    src_start dst_start

/-! ### The fallback LPF (PSD) decoder (lib.rs:574-719) -/

/-- Failure of the fallback decoder: either a structured error string
(Rust `Err(String)`, messages abbreviated) or a Rust panic (an unguarded
slice index out of bounds). -/
inductive PsdFail where
  | panicked
  | err (msg : String)
deriving DecidableEq, Repr

/-- A decoded flattened image: dimensions plus a flat RGBA byte list. -/
structure PsdImage where
  width : Nat
  height : Nat
  rgba : List Nat
deriving DecidableEq, Repr

/-- Big-endian 16-bit value from two bytes. -/
def beU16 (b0 b1 : Nat) : Nat := b0 * 256 + b1

/-- `read_u16` (lib.rs:756-763): big-endian `u16` at `offset`, failing with
a truncation error when the two bytes are not available.  Returns the
value together with the advanced offset. -/
def read_u16 (bytes : List Nat) (offset : Nat) : Except PsdFail (Nat × Nat) :=
  if bytes.length < offset + 2 then .error (.err "PSD data truncated (u16)")
  else .ok (beU16 (bytes.getD offset 0) (bytes.getD (offset+1) 0), offset + 2)

/-- `read_u32` (lib.rs:765-772). -/
def read_u32 (bytes : List Nat) (offset : Nat) : Except PsdFail (Nat × Nat) :=
  if bytes.length < offset + 4 then .error (.err "PSD data truncated (u32)")
  else .ok
    (((bytes.getD offset 0 * 256 + bytes.getD (offset+1) 0) * 256 +
       bytes.getD (offset+2) 0) * 256 + bytes.getD (offset+3) 0, offset + 4)

/-- `read_u64` (lib.rs:774-784). -/
def read_u64 (bytes : List Nat) (offset : Nat) : Except PsdFail (Nat × Nat) :=
  if bytes.length < offset + 8 then .error (.err "PSD data truncated (u64)")
  else .ok
    ((List.range 8).foldl (fun acc k => acc * 256 + bytes.getD (offset + k) 0) 0,
     offset + 8)

/-- The raw (compression 0) channel-reading loop (lib.rs:628-639): each of
the `channels` planes occupies `pixel_count` consecutive bytes; the first
`ch_to_read` are kept, the rest skipped. -/
def readRawChannels (bytes : List Nat) (channels ch_to_read pixel_count : Nat)
    (offset0 : Nat) : Except PsdFail (List (List Nat)) := do
  let st ← (List.range channels).foldlM
    (fun (st : List (List Nat) × Nat) c => do
      let (chs, offset) := st
      if c < ch_to_read then
        if bytes.length < offset + pixel_count then
          throw (.err "PSD data truncated (raw channel)")
        else
          pure (chs ++ [((bytes.drop offset).take pixel_count)],
                offset + pixel_count)
      else
        pure (chs, offset + pixel_count))
    ([], offset0)
  pure st.1

/-- Materialize the function-buffer PackBits decoder over a list
destination, as used for one RLE scanline (lib.rs:665). -/
def decode_packbits_list (src : List Nat) (src_start src_len : Nat)
    (dst : List Nat) (dst_start dst_len : Nat) : List Nat :=
  let f := decode_packbits (fun i => src.getD i 0) src_start src_len
    (fun i => dst.getD i 0) dst_start dst_len
  (List.range dst.length).map f

/-- The RLE (compression 1) channel-reading loop (lib.rs:641-678): per
kept channel, decode `height` scanlines with PackBits into a zeroed plane
of `pixel_count` bytes; for skipped channels only advance past their
scanline bytes. -/
def readRleChannels (bytes : List Nat) (channels ch_to_read pixel_count
    width height : Nat) (row_counts : List Nat) (offset0 : Nat) :
    Except PsdFail (List (List Nat)) := do
  let st ← (List.range channels).foldlM
    (fun (st : List (List Nat) × Nat × Nat) c => do
      let (chs, offset, row_idx) := st
      if c < ch_to_read then
        let st2 ← (List.range height).foldlM
          (fun (st2 : List Nat × Nat × Nat × Nat) _ => do
            let (ch_data, offset, row_idx, pixel_off) := st2
            let row_len := row_counts.getD row_idx 0
            if bytes.length < offset + row_len then
              throw (.err "PSD data truncated (RLE data)")
            else
              pure (decode_packbits_list bytes offset row_len ch_data
                      pixel_off width,
                    offset + row_len, row_idx + 1, pixel_off + width))
          (List.replicate pixel_count 0, offset, row_idx, 0)
        pure (chs ++ [st2.1], st2.2.1, st2.2.2.1)
      else
        let st2 := (List.range height).foldl
          (fun (st2 : Nat × Nat) _ =>
            (st2.1 + row_counts.getD st2.2 0, st2.2 + 1))
          (offset, row_idx)
        pure (chs, st2.1, st2.2))
    ([], offset0, 0)
  pure st.1

/-- The compositing step of the fallback decoder (lib.rs:684-713): build
the RGBA buffer from the decoded channel planes.  `channel_data[0]` is
read without a bounds check in the Rust code, so an empty channel list is
a panic. -/
def compositePsd (color_mode pixel_count : Nat)
    (channel_data : List (List Nat)) : Except PsdFail (List Nat) :=
  if color_mode = 4 then
    match channel_data with
    | [] => .error .panicked
    | c_ch :: _ =>
      let m_ch := channel_data.getD (min 1 (channel_data.length - 1)) []
      let y_ch := channel_data.getD (min 2 (channel_data.length - 1)) []
      let k_ch := if 4 ≤ channel_data.length then channel_data.getD 3 [] else c_ch
      .ok ((List.range pixel_count).flatMap fun i =>
        let c := c_ch.getD i 0
        let m := m_ch.getD i 0
        let y := y_ch.getD i 0
        let k := k_ch.getD i 0
        [255 - min (c + k) 255, 255 - min (m + k) 255,
         255 - min (y + k) 255, 255])
  else
    match channel_data with
    | [] => .error .panicked
    | r :: _ =>
      let g := if 2 ≤ channel_data.length then channel_data.getD 1 [] else r
      let b := if 3 ≤ channel_data.length then channel_data.getD 2 [] else r
      .ok ((List.range pixel_count).flatMap fun i =>
        [r.getD i 0, g.getD i 0, b.getD i 0, 255])

/-- `decode_psd_fallback` (lib.rs:574-719): parse signature, version and
header, skip the color-mode, image-resources and layer sections, read the
image-data section (raw or RLE), and composite to RGBA.  A result of
`.error .panicked` marks an input on which the Rust code performs an
unguarded out-of-bounds slice index (a panic). -/
def decode_psd_fallback (bytes : List Nat) : Except PsdFail PsdImage := do
  if bytes.length < 26 then
    throw (.err "PSD file too small")
  else if ¬ (bytes.take 4 = [56, 66, 80, 83]) then
    throw (.err "Not a PSD file")
  else
    let version := beU16 (bytes.getD 4 0) (bytes.getD 5 0)
    let is_psb := version = 2
    if ¬ (version = 1 ∨ version = 2) then
      throw (.err "Unsupported PSD version")
    else do
      let (channels, offset) ← read_u16 bytes 12
      let (height, offset) ← read_u32 bytes offset
      let (width, offset) ← read_u32 bytes offset
      let (depth, offset) ← read_u16 bytes offset
      let (color_mode, offset) ← read_u16 bytes offset
      if ¬ (depth = 8) then
        throw (.err "Unsupported PSD depth")
      else do
        let (color_data_len, offset) ← read_u32 bytes offset
        let offset := offset + color_data_len
        let (resource_len, offset) ← read_u32 bytes offset
        let offset := offset + resource_len
        let (layer_len, offset) ←
          if is_psb then read_u64 bytes offset else read_u32 bytes offset
        let offset := offset + layer_len
        let (compression, offset) ← read_u16 bytes offset
        let ch_to_read := if color_mode = 4 then min channels 4 else min channels 3
        let pixel_count := width * height
        let channel_data ←
          if compression = 0 then
            readRawChannels bytes channels ch_to_read pixel_count offset
          else if compression = 1 then do
            let total_rows := channels * height
            if bytes.length < offset + total_rows * 2 then
              throw (.err "PSD data truncated (RLE row counts)")
            else
              let row_counts := (List.range total_rows).map fun k =>
                beU16 (bytes.getD (offset + 2*k) 0) (bytes.getD (offset + 2*k + 1) 0)
              readRleChannels bytes channels ch_to_read pixel_count width height
                row_counts (offset + total_rows * 2)
          else
            throw (.err "Unsupported PSD compression")
        let rgba ← compositePsd color_mode pixel_count channel_data
        if rgba.length = width * height * 4 then
          pure ⟨width, height, rgba⟩
        else
          throw (.err "Failed to create image buffer (fallback)")

/-! ### The image cache (lib.rs:16-56) -/

/-- `struct CachedImage` (lib.rs:16-20): resized PNG bytes plus dimensions. -/
structure CachedImage where
  data : List Nat
  width : Nat
  height : Nat
deriving DecidableEq, Repr

/-- `struct ImageCache` (lib.rs:22-26): the `HashMap` is modelled as an
association list with unique keys, the `VecDeque` as a list with head =
front. -/
structure ImageCache where
  cache : List (String × CachedImage)
  order : List String
  max_size : Nat
deriving Repr

/-- `ImageCache::new` (lib.rs:29-35). -/
def ImageCache.new (max_size : Nat) : ImageCache := ⟨[], [], max_size⟩

/-- `HashMap::get`: first (and, under the unique-key invariant, only)
binding of `k`. -/
def mapFind : List (String × CachedImage) → String → Option CachedImage
  | [], _ => none
  | kv :: rest, k => if kv.1 = k then some kv.2 else mapFind rest k

/-- `HashMap::remove`: drop the binding(s) of `k`. -/
def mapRemove : List (String × CachedImage) → String → List (String × CachedImage)
  | [], _ => []
  | kv :: rest, k => if kv.1 = k then mapRemove rest k else kv :: mapRemove rest k

/-- `HashMap::insert`: replace the binding of `k` in place if present,
otherwise append it. -/
def mapInsert : List (String × CachedImage) → String → CachedImage →
    List (String × CachedImage)
  | [], k, v => [(k, v)]
  | kv :: rest, k, v =>
    if kv.1 = k then (k, v) :: rest else kv :: mapInsert rest k v

/-- `ImageCache::get` (lib.rs:37-39): no reordering on lookup. -/
def ImageCache.get (c : ImageCache) (k : String) : Option CachedImage :=
  mapFind c.cache k

/-- `ImageCache::insert` (lib.rs:41-50): when the map already holds
`max_size` entries, pop the front of the order queue and remove that key
from the map; then push the new key to the back and insert the entry. -/
def ImageCache.insert (c : ImageCache) (k : String) (v : CachedImage) :
    ImageCache :=
  let c :=
    if c.max_size ≤ c.cache.length then
      match c.order with
      | oldest :: rest => { c with cache := mapRemove c.cache oldest, order := rest }
      | [] => c
    else c
  { c with order := c.order ++ [k], cache := mapInsert c.cache k v }

/-- `ImageCache::clear` (lib.rs:52-55). -/
def ImageCache.clear (c : ImageCache) : ImageCache :=
  { c with cache := [], order := [] }

/-- One externally visible cache operation. -/
inductive CacheOp where
  | insert (key : String) (image : CachedImage)
  | lookup (key : String)
  | clear

/-- Apply one operation to the cache; `lookup` does not mutate
(lib.rs:37-39: `get` takes `&self`). -/
def applyOp (c : ImageCache) : CacheOp → ImageCache
  | .insert k v => c.insert k v
  | .lookup _ => c
  | .clear => c.clear

/-- Run a sequence of cache operations from a given state. -/
def runOps (c : ImageCache) (ops : List CacheOp) : ImageCache :=
  ops.foldl applyOp c

/-- The keys of the insert operations of a sequence, in order. -/
def insertedKeys (ops : List CacheOp) : List String :=
  ops.filterMap fun op =>
    match op with
    | .insert k _ => some k
    | _ => none

/-! ### Heatmap diff probability (lib.rs:1211-1218 and lib.rs:1330-1337) -/

/-- The `diff_probability` computation of `compute_diff_heatmap`
(lib.rs:1211-1218): `0` when no high-density pixel exists, otherwise
`round1(70 + min(high_density_count / (w·h) · 50000, 30))` where `round1`
rounds to one decimal place.  The `f64` arithmetic is modelled over `ℚ`;
`f64::round` rounds half away from zero, which on these nonnegative
values agrees with Mathlib's `round`. -/
def compute_diff_heatmap_probability (high_density_count w h : Nat) : ℚ :=
  if 0 < high_density_count then
    let total_pixels : ℚ := (w : ℚ) * (h : ℚ)
    let base_prob : ℚ := 70
    let additional : ℚ := min ((high_density_count : ℚ) / total_pixels * 50000) 30
    (round ((base_prob + additional) * 10) : ℚ) / 10
  else 0

/-- The identical `diff_probability` computation of `check_diff_heatmap`
(lib.rs:1330-1337). -/
def check_diff_heatmap_probability (high_density_count w h : Nat) : ℚ :=
  if 0 < high_density_count then
    let total_pixels : ℚ := (w : ℚ) * (h : ℚ)
    let base_prob : ℚ := 70
    let additional : ℚ := min ((high_density_count : ℚ) / total_pixels * 50000) 30
    (round ((base_prob + additional) * 10) : ℚ) / 10
  else 0

/-! ### Derived quantities and fixtures used by the claims -/

/-- Total `count` over a list of markers. -/
def sumMarkerCounts (ms : List DiffMarker) : Nat :=
  (ms.map DiffMarker.count).sum

/-- Total `count` over a list of grid cells. -/
def sumCellCounts (cs : List GridCell) : Nat :=
  (cs.map GridCell.count).sum

/-- Total `count` over a root-keyed group list. -/
def sumGroupCounts (gs : List (Nat × GroupAcc)) : Nat :=
  (gs.map fun g => g.2.count).sum

/-- The expected row contribution of the two-squares scenario: rows 45..54
contribute pixels 45..54, rows 345..354 contribute pixels 345..354, all
other rows contribute nothing. -/
def c1row (y : Nat) : List DiffPixel :=
  if 45 ≤ y ∧ y ≤ 54 then (List.range' 45 10).map (fun x => ⟨x, y⟩)
  else if 345 ≤ y ∧ y ≤ 354 then (List.range' 345 10).map (fun x => ⟨x, y⟩)
  else []

/-- The expected point cloud of the two-squares scenario. -/
def c1cloud : List DiffPixel :=
  (List.range 400).flatMap c1row

/-- A malformed LPF file: valid signature `8BPS`, version 1, **zero
channels**, 1×1, depth 8, RGB color mode, empty auxiliary sections, raw
compression.  On this input the Rust fallback decoder reaches
`&channel_data[0]` with an empty channel vector and panics with an
index-out-of-bounds. -/
def c3FailingInput : List Nat :=
  [56, 66, 80, 83, 0, 1, 0, 0, 0, 0, 0, 0, 0, 0, 0, 0, 0, 1, 0, 0, 0, 1,
   0, 8, 0, 3, 0, 0, 0, 0, 0, 0, 0, 0, 0, 0, 0, 0, 0, 0]

/-- A throwaway cache entry. -/
def emptyEntry : CachedImage := ⟨[], 0, 0⟩

/-- Pixel `q` lies in the bounding box of cell `c`. -/
def inCellBox (q : DiffPixel) (c : GridCell) : Prop :=
  c.min_x ≤ q.x ∧ q.x ≤ c.max_x ∧ c.min_y ≤ q.y ∧ q.y ≤ c.max_y

/-- Pixel `q` lies in the bounding box of group accumulator `g`. -/
def inGroupBox (q : DiffPixel) (g : GroupAcc) : Prop :=
  g.min_x ≤ q.x ∧ q.x ≤ g.max_x ∧ g.min_y ≤ q.y ∧ q.y ≤ g.max_y

/-- The pixel's coordinates fit in a `u32`, as they always do in the Rust
code where `DiffPixel` stores `u32` values. -/
def coordsBounded (p : DiffPixel) : Prop :=
  p.x ≤ 4294967295 ∧ p.y ≤ 4294967295

/-- The cell's minima fit in a `u32` (needed because the Rust group
accumulator starts from `u32::MAX`). -/
def cellBounded (c : GridCell) : Prop :=
  c.min_x ≤ 4294967295 ∧ c.min_y ≤ 4294967295

/-- The structural invariant of the image cache: the association list has
exactly the keys of the order queue, in the same order; the queue has no
duplicates and never exceeds the (positive) capacity. -/
def CacheInv (c : ImageCache) : Prop :=
  c.cache.map Prod.fst = c.order ∧ c.order.Nodup ∧
  c.order.length ≤ c.max_size ∧ 1 ≤ c.max_size

/-! ## Theorems -/

/-! ### Generic list lemmas -/

theorem filterMap_if_length_mono {α β : Type} (p q : α → Bool) (f : α → β)
    (l : List α) (h : ∀ x ∈ l, q x = true → p x = true) :
    (l.filterMap fun x => if q x then some (f x) else none).length ≤
      (l.filterMap fun x => if p x then some (f x) else none).length := by
  induction l with
  | nil => simp
  | cons a l ih =>
    have ih' := ih fun x hx => h x (List.mem_cons_of_mem a hx)
    rcases Bool.eq_false_or_eq_true (q a) with hq | hq
    · have hp := h a (List.mem_cons_self a l) hq
      simp only [List.filterMap_cons, hq, hp]
      simpa using ih'
    · rcases Bool.eq_false_or_eq_true (p a) with hp | hp
      · simp only [List.filterMap_cons, hq, hp]
        simp only [Bool.false_eq_true, if_false, if_true, List.length_cons]
        omega
      · simp only [List.filterMap_cons, hq, hp]
        simpa using ih'

/-! ### C5: self-diff is empty -/

theorem pixelExceeds_self (a : Nat → Nat) (t i : Nat) :
    pixelExceeds a a t i = false := by
  simp [pixelExceeds]

theorem diff_simple_pixels_self (a : Nat → Nat) (w h t : Nat) :
    diff_simple_pixels a a w h t = [] := by
  simp [diff_simple_pixels, pixelExceeds_self]

theorem cluster_markers_nil (g c : Nat) (r : ℚ) :
    cluster_markers [] g c r = [] := by
  simp [cluster_markers]

/-- C5 (`algebraic_relational`): for every RGBA buffer compared against
itself and every threshold, the sharp-diff pipeline common to
`compute_diff_simple` and `check_diff_simple` yields `diff_count = 0`,
an empty marker list, and `has_diff = false`. -/
theorem C5_self_diff (a : Nat → Nat) (w h t : Nat) :
    diff_simple_result a a w h t =
      { has_diff := false, diff_count := 0, markers := [],
        image_width := w, image_height := h } := by
  simp [diff_simple_result, diff_simple_core, diff_simple_pixels_self,
    cluster_markers_nil]

/-! ### C7: threshold monotonicity of the sharp diff count -/

theorem pixelExceeds_mono (a b : Nat → Nat) (t1 t2 i : Nat) (h : t1 ≤ t2)
    (h2 : pixelExceeds a b t2 i = true) : pixelExceeds a b t1 i = true := by
  simp only [pixelExceeds, Bool.or_eq_true, decide_eq_true_eq] at h2 ⊢
  omega

/-- C7 (`algebraic_relational`): for every pair of RGBA buffers of the same
dimensions, the `diff_count` of the sharp per-pixel diff
(`diff_simple_core`) is weakly decreasing in the threshold. -/
theorem C7_threshold_mono (a b : Nat → Nat) (w h t1 t2 : Nat)
    (ht : t1 ≤ t2) :
    (diff_simple_core a b w h t2).1 ≤ (diff_simple_core a b w h t1).1 := by
  simp only [diff_simple_core, diff_simple_pixels]
  induction List.range h with
  | nil => simp
  | cons y ys ih =>
    simp only [List.flatMap_cons, List.length_append]
    refine Nat.add_le_add ?_ ih
    simpa using filterMap_if_length_mono
      (fun x => pixelExceeds a b t1 ((y * w + x) * 4))
      (fun x => pixelExceeds a b t2 ((y * w + x) * 4))
      (fun x => (⟨x, y⟩ : DiffPixel)) (List.range w)
      (fun x _ => pixelExceeds_mono a b t1 t2 _ ht)

/-- Witness for C7 at a concrete input. -/
theorem C7_witness :
    (diff_simple_core (fun _ => 0) (fun i => if i % 4 = 0 then 9 else 0)
        2 2 8).1 ≤
      (diff_simple_core (fun _ => 0) (fun i => if i % 4 = 0 then 9 else 0)
        2 2 5).1 :=
  C7_threshold_mono _ _ 2 2 5 8 (by decide)

/-! ### C6: heatmap probability domain -/

theorem round_between {x : ℚ} {lo hi : ℤ} (h1 : (lo : ℚ) ≤ x)
    (h2 : x ≤ (hi : ℚ)) : lo ≤ round x ∧ round x ≤ hi := by
  rw [round_eq]
  constructor
  · exact Int.le_floor.mpr (by linarith)
  · have hf : (⌊x + 1/2⌋ : ℚ) ≤ x + 1/2 := Int.floor_le _
    have hlt : (⌊x + 1/2⌋ : ℚ) < ((hi + 1 : ℤ) : ℚ) := by push_cast; linarith
    have hlt' : ⌊x + 1/2⌋ < hi + 1 := by exact_mod_cast hlt
    omega

/-- C6 (`functional_correctness`): in both heatmap operations the returned
`diff_probability` lies in `{0} ∪ [70, 100]`, carries at most one decimal
place, equals `0` exactly when `high_density_count = 0`, and for positive
`high_density_count` equals
`round1(70 + min(30, high_density_count / (w·h) · 50000))`. -/
theorem C6_probability_domain (hdc w h : Nat) :
    compute_diff_heatmap_probability hdc w h =
      check_diff_heatmap_probability hdc w h ∧
    (compute_diff_heatmap_probability hdc w h = 0 ↔ hdc = 0) ∧
    (compute_diff_heatmap_probability hdc w h = 0 ∨
      (70 ≤ compute_diff_heatmap_probability hdc w h ∧
       compute_diff_heatmap_probability hdc w h ≤ 100)) ∧
    (∃ n : ℤ, compute_diff_heatmap_probability hdc w h = (n : ℚ) / 10) ∧
    (0 < hdc → compute_diff_heatmap_probability hdc w h =
      (round ((70 + min ((hdc : ℚ) / ((w : ℚ) * (h : ℚ)) * 50000) 30) * 10) : ℚ)
        / 10) := by
  by_cases h0 : 0 < hdc
  · have hA0 : (0 : ℚ) ≤ min ((hdc : ℚ) / ((w : ℚ) * (h : ℚ)) * 50000) 30 :=
      le_min (by positivity) (by norm_num)
    have hA30 : min ((hdc : ℚ) / ((w : ℚ) * (h : ℚ)) * 50000) 30 ≤ 30 :=
      min_le_right _ _
    have hround := @round_between
      ((70 + min ((hdc : ℚ) / ((w : ℚ) * (h : ℚ)) * 50000) 30) * 10)
      700 1000 (by push_cast; linarith) (by push_cast; linarith)
    have hval : compute_diff_heatmap_probability hdc w h =
        (round ((70 + min ((hdc : ℚ) / ((w : ℚ) * (h : ℚ)) * 50000) 30) * 10) : ℚ)
          / 10 := by
      simp [compute_diff_heatmap_probability, h0]
    have hlo : (700 : ℚ) ≤
        (round ((70 + min ((hdc : ℚ) / ((w : ℚ) * (h : ℚ)) * 50000) 30) * 10) : ℚ) := by
      exact_mod_cast hround.1
    have hhi :
        (round ((70 + min ((hdc : ℚ) / ((w : ℚ) * (h : ℚ)) * 50000) 30) * 10) : ℚ)
          ≤ 1000 := by
      exact_mod_cast hround.2
    refine ⟨by simp [compute_diff_heatmap_probability,
        check_diff_heatmap_probability], ?_, ?_, ?_, fun _ => hval⟩
    · constructor
      · intro hz
        rw [hval] at hz
        exfalso
        rcases div_eq_zero_iff.mp hz with h1 | h1
        · linarith
        · norm_num at h1
      · intro hz
        omega
    · right
      rw [hval]
      constructor <;> linarith
    · exact ⟨_, hval⟩
  · have hz : hdc = 0 := by omega
    subst hz
    refine ⟨rfl, by simp [compute_diff_heatmap_probability], ?_, ?_, by omega⟩
    · left
      simp [compute_diff_heatmap_probability]
    · exact ⟨0, by simp [compute_diff_heatmap_probability]⟩

/-- Witness for C6 at a concrete input, discharging the inner hypothesis. -/
theorem C6_witness :
    compute_diff_heatmap_probability 1 1 1 =
      (round ((70 + min (((1 : Nat) : ℚ) / (((1 : Nat) : ℚ) * ((1 : Nat) : ℚ))
        * 50000) 30) * 10) : ℚ) / 10 :=
  (C6_probability_domain 1 1 1).2.2.2.2 (by decide)

/-! ### C1: the two-squares scenario -/

theorem filterMap_congr_fn {α β : Type} (f g : α → Option β) (l : List α)
    (h : ∀ a ∈ l, f a = g a) : l.filterMap f = l.filterMap g := by
  induction l with
  | nil => rfl
  | cons a l ih =>
    rw [List.filterMap_cons, List.filterMap_cons, h a (List.mem_cons_self a l),
      ih fun x hx => h x (List.mem_cons_of_mem a hx)]

theorem flatMap_congr_fn {α β : Type} (f g : α → List β) (l : List α)
    (h : ∀ a ∈ l, f a = g a) : l.flatMap f = l.flatMap g := by
  induction l with
  | nil => rfl
  | cons a l ih =>
    rw [List.flatMap_cons, List.flatMap_cons, h a (List.mem_cons_self a l),
      ih fun x hx => h x (List.mem_cons_of_mem a hx)]

theorem filterMap_if_all_true {α β : Type} (p : α → Bool) (f : α → β)
    (l : List α) (h : ∀ x ∈ l, p x = true) :
    (l.filterMap fun x => if p x then some (f x) else none) = l.map f := by
  induction l with
  | nil => rfl
  | cons a l ih =>
    rw [List.filterMap_cons, h a (List.mem_cons_self a l), List.map_cons,
      ih fun x hx => h x (List.mem_cons_of_mem a hx)]
    simp

theorem filterMap_if_all_false {α β : Type} (p : α → Bool) (f : α → β)
    (l : List α) (h : ∀ x ∈ l, p x = false) :
    (l.filterMap fun x => if p x then some (f x) else none) = [] := by
  induction l with
  | nil => rfl
  | cons a l ih =>
    rw [List.filterMap_cons, h a (List.mem_cons_self a l),
      ih fun x hx => h x (List.mem_cons_of_mem a hx)]
    simp

/-- On the two-squares pair, the per-pixel test fires exactly on the two
squares. -/
theorem pixelExceeds_c1 (x y : Nat) (hx : x < 400) (_hy : y < 400) :
    pixelExceeds blackBuf400 twoSquaresBuf400 10 ((y * 400 + x) * 4) =
      decide ((45 ≤ x ∧ x ≤ 54 ∧ 45 ≤ y ∧ y ≤ 54) ∨
              (345 ≤ x ∧ x ≤ 354 ∧ 345 ≤ y ∧ y ≤ 354)) := by
  have h0 : (y * 400 + x) * 4 % 4 = 0 := by omega
  have h1 : ((y * 400 + x) * 4 + 1) % 4 = 1 := by omega
  have h2 : ((y * 400 + x) * 4 + 2) % 4 = 2 := by omega
  have d0 : (y * 400 + x) * 4 / 4 = y * 400 + x := by omega
  have d1 : ((y * 400 + x) * 4 + 1) / 4 = y * 400 + x := by omega
  have d2 : ((y * 400 + x) * 4 + 2) / 4 = y * 400 + x := by omega
  have m : (y * 400 + x) % 400 = x := by omega
  have dv : (y * 400 + x) / 400 = y := by omega
  simp only [pixelExceeds, blackBuf400, twoSquaresBuf400, h0, h1, h2,
    d0, d1, d2, m, dv]
  by_cases hin : (45 ≤ x ∧ x ≤ 54 ∧ 45 ≤ y ∧ y ≤ 54) ∨
      (345 ≤ x ∧ x ≤ 354 ∧ 345 ≤ y ∧ y ≤ 354)
  · simp [hin]
  · simp [hin]

set_option maxRecDepth 4000 in
/-- Decomposition of `range 400` at the square boundaries. -/
theorem c1_range_split :
    List.range 400 = List.range' 0 45 ++ List.range' 45 10 ++
      List.range' 55 290 ++ List.range' 345 10 ++ List.range' 355 45 := by
  decide

/-- Row-level characterization of the two-squares point cloud. -/
theorem c1_row_eq (y : Nat) (hy : y < 400) :
    ((List.range 400).filterMap fun x =>
      if pixelExceeds blackBuf400 twoSquaresBuf400 10 ((y * 400 + x) * 4) then
        some (⟨x, y⟩ : DiffPixel)
      else none) = c1row y := by
  have hcongr :
      ((List.range 400).filterMap fun x =>
        if pixelExceeds blackBuf400 twoSquaresBuf400 10 ((y * 400 + x) * 4) then
          some (⟨x, y⟩ : DiffPixel)
        else none) =
      ((List.range 400).filterMap fun x =>
        if decide ((45 ≤ x ∧ x ≤ 54 ∧ 45 ≤ y ∧ y ≤ 54) ∨
              (345 ≤ x ∧ x ≤ 354 ∧ 345 ≤ y ∧ y ≤ 354)) then
          some (⟨x, y⟩ : DiffPixel)
        else none) := by
    refine filterMap_congr_fn _ _ _ fun a ha => ?_
    rw [pixelExceeds_c1 a y (List.mem_range.mp ha) hy]
  rw [hcongr, c1_range_split]
  by_cases hA : 45 ≤ y ∧ y ≤ 54
  · simp only [List.filterMap_append]
    rw [filterMap_if_all_false _ (fun x => (⟨x, y⟩ : DiffPixel)) (List.range' 0 45)
        (fun x hx => by
          have := List.mem_range'_1.mp hx
          simp only [decide_eq_false_iff_not]
          omega),
      filterMap_if_all_true _ (fun x => (⟨x, y⟩ : DiffPixel)) (List.range' 45 10)
        (fun x hx => by
          have := List.mem_range'_1.mp hx
          simp only [decide_eq_true_eq]
          omega),
      filterMap_if_all_false _ (fun x => (⟨x, y⟩ : DiffPixel)) (List.range' 55 290)
        (fun x hx => by
          have := List.mem_range'_1.mp hx
          simp only [decide_eq_false_iff_not]
          omega),
      filterMap_if_all_false _ (fun x => (⟨x, y⟩ : DiffPixel)) (List.range' 345 10)
        (fun x hx => by
          have := List.mem_range'_1.mp hx
          simp only [decide_eq_false_iff_not]
          omega),
      filterMap_if_all_false _ (fun x => (⟨x, y⟩ : DiffPixel)) (List.range' 355 45)
        (fun x hx => by
          have := List.mem_range'_1.mp hx
          simp only [decide_eq_false_iff_not]
          omega)]
    simp [c1row, hA]
  · by_cases hB : 345 ≤ y ∧ y ≤ 354
    · simp only [List.filterMap_append]
      rw [filterMap_if_all_false _ (fun x => (⟨x, y⟩ : DiffPixel)) (List.range' 0 45)
          (fun x hx => by
            have := List.mem_range'_1.mp hx
            simp only [decide_eq_false_iff_not]
            omega),
        filterMap_if_all_false _ (fun x => (⟨x, y⟩ : DiffPixel)) (List.range' 45 10)
          (fun x hx => by
            have := List.mem_range'_1.mp hx
            simp only [decide_eq_false_iff_not]
            omega),
        filterMap_if_all_false _ (fun x => (⟨x, y⟩ : DiffPixel)) (List.range' 55 290)
          (fun x hx => by
            have := List.mem_range'_1.mp hx
            simp only [decide_eq_false_iff_not]
            omega),
        filterMap_if_all_true _ (fun x => (⟨x, y⟩ : DiffPixel)) (List.range' 345 10)
          (fun x hx => by
            have := List.mem_range'_1.mp hx
            simp only [decide_eq_true_eq]
            omega),
        filterMap_if_all_false _ (fun x => (⟨x, y⟩ : DiffPixel)) (List.range' 355 45)
          (fun x hx => by
            have := List.mem_range'_1.mp hx
            simp only [decide_eq_false_iff_not]
            omega)]
      simp [c1row, hA, hB]
    · rw [filterMap_if_all_false _ (fun x => (⟨x, y⟩ : DiffPixel)) _
        (fun x hx => by
          simp only [decide_eq_false_iff_not]
          omega)]
      simp [c1row, hA, hB]

/-- The two-squares point cloud is exactly `c1cloud`. -/
theorem c1_pixels_eq :
    diff_simple_pixels blackBuf400 twoSquaresBuf400 400 400 10 = c1cloud := by
  unfold diff_simple_pixels c1cloud
  exact flatMap_congr_fn _ _ _ fun y hy => c1_row_eq y (List.mem_range.mp hy)

theorem c1_result_fields :
    (diff_simple_result blackBuf400 twoSquaresBuf400 400 400 10).diff_count =
      c1cloud.length ∧
    (diff_simple_result blackBuf400 twoSquaresBuf400 400 400 10).markers =
      cluster_markers c1cloud 200 1 300 ∧
    (diff_simple_result blackBuf400 twoSquaresBuf400 400 400 10).has_diff =
      decide (0 < c1cloud.length) := by
  refine ⟨?_, ?_, ?_⟩ <;>
    simp [diff_simple_result, diff_simple_core, c1_pixels_eq]

set_option maxRecDepth 8000 in
/-- C1 counterexample: on the two-squares pair the sharp pipeline does
**not** return two markers — the cells `(0,0)` and `(1,1)` are diagonally
adjacent, so the union-find merges them. -/
theorem C1_counterexample :
    ¬ ((diff_simple_result blackBuf400 twoSquaresBuf400 400 400 10).markers.length
        = 2) := by
  rw [c1_result_fields.2.1]
  decide

set_option maxRecDepth 8000 in
/-- C1 as amended (`functional_correctness`): on the 400×400 black image
versus the same image with two 10×10 white squares centered at `(50,50)`
and `(350,350)`, with threshold 10, the sharp pipeline shared by
`compute_diff_simple` and `check_diff_simple` returns `diff_count = 200`,
`has_diff = true`, and exactly **one** marker: with grid size 200 the two
squares fall into the diagonally adjacent grid cells `(0,0)` and `(1,1)`,
which the 8-neighborhood union-find merges into a single cluster. -/
theorem C1_amended :
    (diff_simple_result blackBuf400 twoSquaresBuf400 400 400 10).diff_count
        = 200 ∧
    (diff_simple_result blackBuf400 twoSquaresBuf400 400 400 10).markers.length
        = 1 ∧
    (diff_simple_result blackBuf400 twoSquaresBuf400 400 400 10).has_diff
        = true := by
  refine ⟨?_, ?_, ?_⟩
  · rw [c1_result_fields.1]
    decide
  · rw [c1_result_fields.2.1]
    decide
  · rw [c1_result_fields.2.2]
    decide

/-! ### Invariants of the cluster reducer (used by C2 and C9) -/

theorem sumCellCounts_cons (c : GridCell) (cs : List GridCell) :
    sumCellCounts (c :: cs) = c.count + sumCellCounts cs := by
  simp [sumCellCounts]

theorem insertPixel_sum (g : Nat) (cells : List GridCell) (p : DiffPixel) :
    sumCellCounts (insertPixel g cells p) = sumCellCounts cells + 1 := by
  induction cells with
  | nil => simp [insertPixel, sumCellCounts]
  | cons c cs ih =>
    by_cases hk : c.gx = p.x / g ∧ c.gy = p.y / g
    · rw [insertPixel, if_pos hk, sumCellCounts_cons, sumCellCounts_cons]
      simp only [GridCell.count]
      omega
    · rw [insertPixel, if_neg hk, sumCellCounts_cons, sumCellCounts_cons, ih]
      omega

theorem foldl_insertPixel_sum (g : Nat) (ps : List DiffPixel) :
    ∀ cells, sumCellCounts (ps.foldl (insertPixel g) cells) =
      sumCellCounts cells + ps.length := by
  induction ps with
  | nil => intro cells; simp
  | cons p ps ih =>
    intro cells
    rw [List.foldl_cons, ih, insertPixel_sum]
    simp only [List.length_cons]
    omega

theorem bucketCells_sum (g : Nat) (ps : List DiffPixel) :
    sumCellCounts (bucketCells g ps) = ps.length := by
  rw [bucketCells, foldl_insertPixel_sum]
  simp [sumCellCounts]

theorem insertPixel_count_pos (g : Nat) (cells : List GridCell) (p : DiffPixel)
    (h : ∀ c ∈ cells, 1 ≤ c.count) :
    ∀ c ∈ insertPixel g cells p, 1 ≤ c.count := by
  induction cells with
  | nil =>
    intro c hc
    simp only [insertPixel, List.mem_singleton] at hc
    subst hc
    exact Nat.le_refl 1
  | cons c0 cs ih =>
    intro c hc
    by_cases hk : c0.gx = p.x / g ∧ c0.gy = p.y / g
    · rw [insertPixel, if_pos hk] at hc
      rcases List.mem_cons.mp hc with hc | hc
      · subst hc
        simp only [GridCell.count]
        omega
      · exact h c (List.mem_cons_of_mem c0 hc)
    · rw [insertPixel, if_neg hk] at hc
      rcases List.mem_cons.mp hc with hc | hc
      · rw [hc]
        exact h c0 (List.mem_cons_self c0 cs)
      · exact ih (fun c' hc' => h c' (List.mem_cons_of_mem c0 hc')) c hc

theorem bucketCells_count_pos (g : Nat) (ps : List DiffPixel) :
    ∀ c ∈ bucketCells g ps, 1 ≤ c.count := by
  rw [bucketCells]
  have main : ∀ (qs : List DiffPixel) (cells : List GridCell),
      (∀ c ∈ cells, 1 ≤ c.count) →
      ∀ c ∈ qs.foldl (insertPixel g) cells, 1 ≤ c.count := by
    intro qs
    induction qs with
    | nil => intro cells h c hc; exact h c hc
    | cons p qs ih =>
      intro cells h c hc
      exact ih (insertPixel g cells p) (insertPixel_count_pos g cells p h) c hc
  exact main ps [] (by simp)

theorem insertPixel_box (g : Nat) (cells : List GridCell) (p : DiffPixel)
    (P : DiffPixel → Prop) (hp : P p)
    (h : ∀ c ∈ cells, ∃ q, P q ∧ inCellBox q c) :
    ∀ c ∈ insertPixel g cells p, ∃ q, P q ∧ inCellBox q c := by
  induction cells with
  | nil =>
    intro c hc
    simp only [insertPixel, List.mem_singleton] at hc
    subst hc
    exact ⟨p, hp, le_refl _, le_refl _, le_refl _, le_refl _⟩
  | cons c0 cs ih =>
    intro c hc
    by_cases hk : c0.gx = p.x / g ∧ c0.gy = p.y / g
    · rw [insertPixel, if_pos hk] at hc
      rcases List.mem_cons.mp hc with hc | hc
      · subst hc
        obtain ⟨q, hq, hbox⟩ := h c0 (List.mem_cons_self c0 cs)
        refine ⟨q, hq, ?_, ?_, ?_, ?_⟩ <;>
          simp only [inCellBox] at hbox <;> simp only [GridCell.min_x,
            GridCell.max_x, GridCell.min_y, GridCell.max_y] <;> omega
      · exact h c (List.mem_cons_of_mem c0 hc)
    · rw [insertPixel, if_neg hk] at hc
      rcases List.mem_cons.mp hc with hc | hc
      · rw [hc]
        exact h c0 (List.mem_cons_self c0 cs)
      · exact ih (fun c' hc' => h c' (List.mem_cons_of_mem c0 hc')) c hc

theorem bucketCells_box (g : Nat) (ps : List DiffPixel) :
    ∀ c ∈ bucketCells g ps, ∃ q, q ∈ ps ∧ inCellBox q c := by
  rw [bucketCells]
  have main : ∀ (qs : List DiffPixel) (cells : List GridCell),
      (∀ p ∈ qs, p ∈ ps) →
      (∀ c ∈ cells, ∃ q, q ∈ ps ∧ inCellBox q c) →
      ∀ c ∈ qs.foldl (insertPixel g) cells, ∃ q, q ∈ ps ∧ inCellBox q c := by
    intro qs
    induction qs with
    | nil => intro cells _ h c hc; exact h c hc
    | cons p qs ih =>
      intro cells hqs h c hc
      exact ih (insertPixel g cells p)
        (fun p' hp' => hqs p' (List.mem_cons_of_mem p hp'))
        (insertPixel_box g cells p _ (hqs p (List.mem_cons_self p qs)) h) c hc
  exact main ps [] (fun p hp => hp) (by simp)

theorem insertPixel_bounded (g : Nat) (cells : List GridCell) (p : DiffPixel)
    (hp : coordsBounded p) (h : ∀ c ∈ cells, cellBounded c) :
    ∀ c ∈ insertPixel g cells p, cellBounded c := by
  induction cells with
  | nil =>
    intro c hc
    simp only [insertPixel, List.mem_singleton] at hc
    subst hc
    exact ⟨hp.1, hp.2⟩
  | cons c0 cs ih =>
    intro c hc
    by_cases hk : c0.gx = p.x / g ∧ c0.gy = p.y / g
    · rw [insertPixel, if_pos hk] at hc
      rcases List.mem_cons.mp hc with hc | hc
      · subst hc
        have h0 := h c0 (List.mem_cons_self c0 cs)
        simp only [cellBounded, GridCell.min_x, GridCell.min_y] at h0 ⊢
        have := hp.1
        have := hp.2
        omega
      · exact h c (List.mem_cons_of_mem c0 hc)
    · rw [insertPixel, if_neg hk] at hc
      rcases List.mem_cons.mp hc with hc | hc
      · rw [hc]
        exact h c0 (List.mem_cons_self c0 cs)
      · exact ih (fun c' hc' => h c' (List.mem_cons_of_mem c0 hc')) c hc

theorem bucketCells_bounded (g : Nat) (ps : List DiffPixel)
    (hps : ∀ p ∈ ps, coordsBounded p) :
    ∀ c ∈ bucketCells g ps, cellBounded c := by
  rw [bucketCells]
  have main : ∀ (qs : List DiffPixel) (cells : List GridCell),
      (∀ p ∈ qs, coordsBounded p) →
      (∀ c ∈ cells, cellBounded c) →
      ∀ c ∈ qs.foldl (insertPixel g) cells, cellBounded c := by
    intro qs
    induction qs with
    | nil => intro cells _ h c hc; exact h c hc
    | cons p qs ih =>
      intro cells hqs h c hc
      exact ih (insertPixel g cells p)
        (fun p' hp' => hqs p' (List.mem_cons_of_mem p hp'))
        (insertPixel_bounded g cells p (hqs p (List.mem_cons_self p qs)) h) c hc
  exact main ps [] hps (by simp)

theorem sumGroupCounts_cons (g : Nat × GroupAcc) (gs : List (Nat × GroupAcc)) :
    sumGroupCounts (g :: gs) = g.2.count + sumGroupCounts gs := by
  simp [sumGroupCounts]

theorem updateGroup_sum (gs : List (Nat × GroupAcc)) (r : Nat) (c : GridCell) :
    sumGroupCounts (updateGroup gs r c) = sumGroupCounts gs + c.count := by
  induction gs with
  | nil => simp [updateGroup, sumGroupCounts, mergeGroup, emptyGroup]
  | cons g0 gs ih =>
    by_cases hk : g0.1 = r
    · rw [show (g0 :: gs) = (g0.1, g0.2) :: gs by rfl, updateGroup, if_pos hk,
        sumGroupCounts_cons, sumGroupCounts_cons]
      simp only [mergeGroup]
      omega
    · rw [show (g0 :: gs) = (g0.1, g0.2) :: gs by rfl, updateGroup, if_neg hk,
        sumGroupCounts_cons, sumGroupCounts_cons, ih]
      omega

theorem updateGroup_box (gs : List (Nat × GroupAcc)) (r : Nat) (c : GridCell)
    (P : DiffPixel → Prop)
    (hgs : ∀ gp ∈ gs, ∃ q, P q ∧ inGroupBox q gp.2)
    (hc : ∃ q, P q ∧ inCellBox q c) (hb : cellBounded c) :
    ∀ gp ∈ updateGroup gs r c, ∃ q, P q ∧ inGroupBox q gp.2 := by
  induction gs with
  | nil =>
    intro gp hgp
    simp only [updateGroup, List.mem_singleton] at hgp
    subst hgp
    obtain ⟨q, hq, hbox⟩ := hc
    refine ⟨q, hq, ?_⟩
    simp only [inCellBox] at hbox
    simp only [inGroupBox, mergeGroup, emptyGroup, GroupAcc.min_x,
      GroupAcc.max_x, GroupAcc.min_y, GroupAcc.max_y]
    obtain ⟨hb1, hb2⟩ := hb
    omega
  | cons g0 gs ih =>
    intro gp hgp
    by_cases hk : g0.1 = r
    · rw [show (g0 :: gs) = (g0.1, g0.2) :: gs by rfl, updateGroup, if_pos hk]
      at hgp
      rcases List.mem_cons.mp hgp with hgp | hgp
      · subst hgp
        obtain ⟨q, hq, hbox⟩ := hgs g0 (List.mem_cons_self g0 gs)
        refine ⟨q, hq, ?_⟩
        simp only [inGroupBox, mergeGroup] at hbox ⊢
        omega
      · exact hgs gp (List.mem_cons_of_mem g0 hgp)
    · rw [show (g0 :: gs) = (g0.1, g0.2) :: gs by rfl, updateGroup, if_neg hk]
      at hgp
      rcases List.mem_cons.mp hgp with hgp | hgp
      · rw [hgp]
        exact hgs g0 (List.mem_cons_self g0 gs)
      · exact ih (fun gp' hgp' => hgs gp' (List.mem_cons_of_mem g0 hgp')) gp hgp

theorem updateGroup_count_pos (gs : List (Nat × GroupAcc)) (r : Nat)
    (c : GridCell) (hgs : ∀ gp ∈ gs, 1 ≤ gp.2.count) (hc : 1 ≤ c.count) :
    ∀ gp ∈ updateGroup gs r c, 1 ≤ gp.2.count := by
  induction gs with
  | nil =>
    intro gp hgp
    simp only [updateGroup, List.mem_singleton] at hgp
    subst hgp
    simp only [mergeGroup, emptyGroup]
    omega
  | cons g0 gs ih =>
    intro gp hgp
    by_cases hk : g0.1 = r
    · rw [show (g0 :: gs) = (g0.1, g0.2) :: gs by rfl, updateGroup, if_pos hk]
      at hgp
      rcases List.mem_cons.mp hgp with hgp | hgp
      · subst hgp
        simp only [mergeGroup]
        omega
      · exact hgs gp (List.mem_cons_of_mem g0 hgp)
    · rw [show (g0 :: gs) = (g0.1, g0.2) :: gs by rfl, updateGroup, if_neg hk]
      at hgp
      rcases List.mem_cons.mp hgp with hgp | hgp
      · rw [hgp]
        exact hgs g0 (List.mem_cons_self g0 gs)
      · exact ih (fun gp' hgp' => hgs gp' (List.mem_cons_of_mem g0 hgp')) gp hgp

theorem aggFold_sum (n : Nat) (L : List (Nat × GridCell)) :
    ∀ parent gs, sumGroupCounts ((L.foldl (aggregateStep n) (parent, gs)).2) =
      sumGroupCounts gs + (L.map fun ic => ic.2.count).sum := by
  induction L with
  | nil => intro parent gs; simp
  | cons ic L ih =>
    intro parent gs
    rw [List.foldl_cons]
    show sumGroupCounts ((L.foldl (aggregateStep n) (aggregateStep n (parent, gs) ic)).2) = _
    rw [show aggregateStep n (parent, gs) ic =
      ((findHalve n parent ic.1).1, updateGroup gs (findHalve n parent ic.1).2 ic.2) from rfl]
    rw [ih, updateGroup_sum]
    simp only [List.map_cons, List.sum_cons]
    omega

theorem aggFold_box (n : Nat) (P : DiffPixel → Prop)
    (L : List (Nat × GridCell))
    (hL : ∀ ic ∈ L, (∃ q, P q ∧ inCellBox q ic.2) ∧ cellBounded ic.2) :
    ∀ parent gs, (∀ gp ∈ gs, ∃ q, P q ∧ inGroupBox q gp.2) →
      ∀ gp ∈ (L.foldl (aggregateStep n) (parent, gs)).2,
        ∃ q, P q ∧ inGroupBox q gp.2 := by
  induction L with
  | nil => intro parent gs h gp hgp; exact h gp hgp
  | cons ic L ih =>
    intro parent gs h gp hgp
    rw [List.foldl_cons] at hgp
    have hic := hL ic (List.mem_cons_self ic L)
    exact ih (fun ic' hic' => hL ic' (List.mem_cons_of_mem ic hic'))
      (findHalve n parent ic.1).1
      (updateGroup gs (findHalve n parent ic.1).2 ic.2)
      (updateGroup_box gs _ ic.2 P h hic.1 hic.2) gp hgp

theorem aggFold_count_pos (n : Nat) (L : List (Nat × GridCell))
    (hL : ∀ ic ∈ L, 1 ≤ ic.2.count) :
    ∀ parent gs, (∀ gp ∈ gs, 1 ≤ gp.2.count) →
      ∀ gp ∈ (L.foldl (aggregateStep n) (parent, gs)).2, 1 ≤ gp.2.count := by
  induction L with
  | nil => intro parent gs h gp hgp; exact h gp hgp
  | cons ic L ih =>
    intro parent gs h gp hgp
    rw [List.foldl_cons] at hgp
    exact ih (fun ic' hic' => hL ic' (List.mem_cons_of_mem ic hic'))
      (findHalve n parent ic.1).1
      (updateGroup gs (findHalve n parent ic.1).2 ic.2)
      (updateGroup_count_pos gs _ ic.2 h (hL ic (List.mem_cons_self ic L)))
      gp hgp

theorem aggregateGroups_sum (cells : List GridCell) :
    sumGroupCounts (aggregateGroups cells) = sumCellCounts cells := by
  rw [aggregateGroups, aggFold_sum]
  have : (cells.enum.map fun ic => ic.2.count) = cells.map GridCell.count := by
    rw [show (fun ic : Nat × GridCell => ic.2.count) =
      GridCell.count ∘ Prod.snd from rfl, ← List.map_map, List.enum_map_snd]
  rw [this]
  simp [sumGroupCounts, sumCellCounts]

theorem mem_of_mem_enum {α : Type} {l : List α} {ic : Nat × α}
    (h : ic ∈ l.enum) : ic.2 ∈ l := by
  have := List.mem_map_of_mem Prod.snd h
  rwa [List.enum_map_snd] at this

theorem aggregateGroups_box (cells : List GridCell) (P : DiffPixel → Prop)
    (hcells : ∀ c ∈ cells, (∃ q, P q ∧ inCellBox q c) ∧ cellBounded c) :
    ∀ gp ∈ aggregateGroups cells, ∃ q, P q ∧ inGroupBox q gp.2 := by
  rw [aggregateGroups]
  exact aggFold_box cells.length P cells.enum
    (fun ic hic => hcells ic.2 (mem_of_mem_enum hic)) _ [] (by simp)

theorem aggregateGroups_count_pos (cells : List GridCell)
    (hcells : ∀ c ∈ cells, 1 ≤ c.count) :
    ∀ gp ∈ aggregateGroups cells, 1 ≤ gp.2.count := by
  rw [aggregateGroups]
  exact aggFold_count_pos cells.length cells.enum
    (fun ic hic => hcells ic.2 (mem_of_mem_enum hic)) _ [] (by simp)

theorem markerOfGroup_count (r : ℚ) (g : GroupAcc) :
    (markerOfGroup r g).count = g.count := rfl

theorem sumMarkerCounts_markersOfGroups_le (cmin : Nat) (r : ℚ)
    (gs : List GroupAcc) :
    sumMarkerCounts (markersOfGroups cmin r gs) ≤
      (gs.map GroupAcc.count).sum := by
  induction gs with
  | nil => simp [markersOfGroups, sumMarkerCounts]
  | cons g0 gs ih =>
    rw [markersOfGroups, List.filter_cons]
    by_cases hc : cmin ≤ g0.count
    · simp only [decide_eq_true hc, if_true, List.map_cons, List.sum_cons]
      rw [show ((markerOfGroup r g0 ::
          ((gs.filter fun g => cmin ≤ g.count).map (markerOfGroup r)))) =
        markerOfGroup r g0 :: markersOfGroups cmin r gs from rfl]
      simp only [sumMarkerCounts, List.map_cons, List.sum_cons,
        markerOfGroup_count] at ih ⊢
      omega
    · simp only [decide_eq_false hc, Bool.false_eq_true, if_false,
        List.map_cons, List.sum_cons]
      rw [show (((gs.filter fun g => cmin ≤ g.count).map (markerOfGroup r))) =
        markersOfGroups cmin r gs from rfl]
      omega

theorem sumMarkerCounts_markersOfGroups_eq (cmin : Nat) (r : ℚ)
    (gs : List GroupAcc) (h : ∀ g ∈ gs, cmin ≤ g.count) :
    sumMarkerCounts (markersOfGroups cmin r gs) = (gs.map GroupAcc.count).sum := by
  induction gs with
  | nil => simp [markersOfGroups, sumMarkerCounts]
  | cons g0 gs ih =>
    rw [markersOfGroups, List.filter_cons]
    have hc := h g0 (List.mem_cons_self g0 gs)
    simp only [decide_eq_true hc, if_true, List.map_cons, List.sum_cons]
    rw [show ((markerOfGroup r g0 ::
        ((gs.filter fun g => cmin ≤ g.count).map (markerOfGroup r)))) =
      markerOfGroup r g0 :: markersOfGroups cmin r gs from rfl]
    simp only [sumMarkerCounts, List.map_cons, List.sum_cons, markerOfGroup_count]
    have := ih fun g hg => h g (List.mem_cons_of_mem g0 hg)
    simp only [sumMarkerCounts] at this
    omega

theorem markersOfGroups_length_eq (cmin : Nat) (r : ℚ) (gs : List GroupAcc)
    (h : ∀ g ∈ gs, cmin ≤ g.count) :
    (markersOfGroups cmin r gs).length = gs.length := by
  rw [markersOfGroups, List.length_map, List.filter_eq_self.mpr]
  intro g hg
  simpa using h g hg

theorem mem_markersOfGroups (cmin : Nat) (r : ℚ) (gs : List GroupAcc)
    (m : DiffMarker) (hm : m ∈ markersOfGroups cmin r gs) :
    ∃ g ∈ gs, m = markerOfGroup r g := by
  rw [markersOfGroups] at hm
  obtain ⟨g, hg, hgm⟩ := List.mem_map.mp hm
  exact ⟨g, List.mem_of_mem_filter hg, hgm.symm⟩

theorem markerOfGroup_chebyshev (r : ℚ) (g : GroupAcc) (q : DiffPixel)
    (h : inGroupBox q g) :
    |(q.x : ℚ) - (markerOfGroup r g).x| ≤ (markerOfGroup r g).radius ∧
    |(q.y : ℚ) - (markerOfGroup r g).y| ≤ (markerOfGroup r g).radius := by
  obtain ⟨h1, h2, h3, h4⟩ := h
  have c1 : (g.min_x : ℚ) ≤ (q.x : ℚ) := by exact_mod_cast h1
  have c2 : (q.x : ℚ) ≤ (g.max_x : ℚ) := by exact_mod_cast h2
  have c3 : (g.min_y : ℚ) ≤ (q.y : ℚ) := by exact_mod_cast h3
  have c4 : (q.y : ℚ) ≤ (g.max_y : ℚ) := by exact_mod_cast h4
  simp only [markerOfGroup]
  have hpad : (60 : ℚ) ≤ if 200 < r then 100 else 60 := by
    split <;> norm_num
  constructor
  · rw [abs_le]
    have hrx : ((g.max_x : ℚ) - (g.min_x : ℚ)) / 2 +
        (if 200 < r then (100 : ℚ) else 60) ≤
        max r (max (((g.max_x : ℚ) - (g.min_x : ℚ)) / 2 +
            (if 200 < r then (100 : ℚ) else 60))
          (((g.max_y : ℚ) - (g.min_y : ℚ)) / 2 +
            (if 200 < r then (100 : ℚ) else 60))) :=
      le_trans (le_max_left _ _) (le_max_right _ _)
    constructor <;> linarith
  · rw [abs_le]
    have hry : ((g.max_y : ℚ) - (g.min_y : ℚ)) / 2 +
        (if 200 < r then (100 : ℚ) else 60) ≤
        max r (max (((g.max_x : ℚ) - (g.min_x : ℚ)) / 2 +
            (if 200 < r then (100 : ℚ) else 60))
          (((g.max_y : ℚ) - (g.min_y : ℚ)) / 2 +
            (if 200 < r then (100 : ℚ) else 60))) :=
      le_trans (le_max_right _ _) (le_max_right _ _)
    constructor <;> linarith

theorem insertByCountDesc_sum (m : DiffMarker) (l : List DiffMarker) :
    sumMarkerCounts (insertByCountDesc m l) = m.count + sumMarkerCounts l := by
  induction l with
  | nil => simp [insertByCountDesc, sumMarkerCounts]
  | cons x xs ih =>
    rw [insertByCountDesc]
    by_cases hc : x.count < m.count
    · rw [if_pos hc]
      simp [sumMarkerCounts]
    · rw [if_neg hc]
      simp only [sumMarkerCounts, List.map_cons, List.sum_cons] at ih ⊢
      omega

theorem sortByCountDesc_sum (l : List DiffMarker) :
    sumMarkerCounts (sortByCountDesc l) = sumMarkerCounts l := by
  induction l with
  | nil => rfl
  | cons m ms ih =>
    rw [sortByCountDesc, insertByCountDesc_sum, ih]
    simp [sumMarkerCounts]

theorem insertByCountDesc_length (m : DiffMarker) (l : List DiffMarker) :
    (insertByCountDesc m l).length = l.length + 1 := by
  induction l with
  | nil => rfl
  | cons x xs ih =>
    rw [insertByCountDesc]
    by_cases hc : x.count < m.count
    · rw [if_pos hc]
      simp
    · rw [if_neg hc]
      simp only [List.length_cons, ih]

theorem sortByCountDesc_length (l : List DiffMarker) :
    (sortByCountDesc l).length = l.length := by
  induction l with
  | nil => rfl
  | cons m ms ih =>
    rw [sortByCountDesc, insertByCountDesc_length, ih, List.length_cons]

theorem mem_insertByCountDesc (m a : DiffMarker) (l : List DiffMarker)
    (h : a ∈ insertByCountDesc m l) : a = m ∨ a ∈ l := by
  induction l with
  | nil =>
    simp only [insertByCountDesc, List.mem_singleton] at h
    exact Or.inl h
  | cons x xs ih =>
    rw [insertByCountDesc] at h
    by_cases hc : x.count < m.count
    · rw [if_pos hc] at h
      rcases List.mem_cons.mp h with h | h
      · exact Or.inl h
      · exact Or.inr h
    · rw [if_neg hc] at h
      rcases List.mem_cons.mp h with h | h
      · exact Or.inr (h ▸ List.mem_cons_self x xs)
      · rcases ih h with h | h
        · exact Or.inl h
        · exact Or.inr (List.mem_cons_of_mem x h)

theorem mem_sortByCountDesc (a : DiffMarker) (l : List DiffMarker)
    (h : a ∈ sortByCountDesc l) : a ∈ l := by
  induction l with
  | nil => simp [sortByCountDesc] at h
  | cons m ms ih =>
    rw [sortByCountDesc] at h
    rcases mem_insertByCountDesc m a _ h with h | h
    · exact h ▸ List.mem_cons_self m ms
    · exact List.mem_cons_of_mem m (ih h)

theorem bucketCells_ne_nil (g : Nat) (ps : List DiffPixel) (h : ps ≠ []) :
    bucketCells g ps ≠ [] := by
  intro hnil
  have := bucketCells_sum g ps
  rw [hnil] at this
  simp only [sumCellCounts, List.map_nil, List.sum_nil] at this
  exact h (List.length_eq_zero.mp this.symm)

theorem cluster_markers_eq_of_ne_nil (ps : List DiffPixel) (g cmin : Nat)
    (r : ℚ) (h : ps ≠ []) :
    cluster_markers ps g cmin r =
      sortByCountDesc (markersOfGroups cmin r
        ((aggregateGroups (bucketCells g ps)).map Prod.snd)) := by
  have h1 : ps.isEmpty = false := by
    cases ps with
    | nil => exact absurd rfl h
    | cons a l => rfl
  have h2 : (bucketCells g ps).isEmpty = false := by
    cases hb : bucketCells g ps with
    | nil => exact absurd hb (bucketCells_ne_nil g ps h)
    | cons a l => rfl
  simp only [cluster_markers, h1, h2, Bool.false_eq_true, if_false]

theorem map_snd_count_sum (gs : List (Nat × GroupAcc)) :
    ((gs.map Prod.snd).map GroupAcc.count).sum = sumGroupCounts gs := by
  rw [List.map_map]
  rfl

theorem cluster_markers_sum_le (ps : List DiffPixel) (g cmin : Nat) (r : ℚ) :
    sumMarkerCounts (cluster_markers ps g cmin r) ≤ ps.length := by
  cases hps : ps with
  | nil => simp [cluster_markers_nil, sumMarkerCounts]
  | cons p l =>
    rw [← hps, cluster_markers_eq_of_ne_nil ps g cmin r (by rw [hps]; simp),
      sortByCountDesc_sum]
    calc sumMarkerCounts (markersOfGroups cmin r
          ((aggregateGroups (bucketCells g ps)).map Prod.snd))
        ≤ (((aggregateGroups (bucketCells g ps)).map Prod.snd).map
            GroupAcc.count).sum := sumMarkerCounts_markersOfGroups_le _ _ _
      _ = sumGroupCounts (aggregateGroups (bucketCells g ps)) :=
          map_snd_count_sum _
      _ = sumCellCounts (bucketCells g ps) := aggregateGroups_sum _
      _ = ps.length := bucketCells_sum g ps

theorem cluster_markers_sum_min1 (ps : List DiffPixel) (g : Nat) (r : ℚ) :
    sumMarkerCounts (cluster_markers ps g 1 r) = ps.length := by
  cases hps : ps with
  | nil => simp [cluster_markers_nil, sumMarkerCounts]
  | cons p l =>
    rw [← hps, cluster_markers_eq_of_ne_nil ps g 1 r (by rw [hps]; simp),
      sortByCountDesc_sum]
    have hpos : ∀ gacc ∈ (aggregateGroups (bucketCells g ps)).map Prod.snd,
        1 ≤ gacc.count := by
      intro gacc hgacc
      obtain ⟨gp, hgp, hsnd⟩ := List.mem_map.mp hgacc
      exact hsnd ▸ aggregateGroups_count_pos (bucketCells g ps)
        (bucketCells_count_pos g ps) gp hgp
    calc sumMarkerCounts (markersOfGroups 1 r
          ((aggregateGroups (bucketCells g ps)).map Prod.snd))
        = (((aggregateGroups (bucketCells g ps)).map Prod.snd).map
            GroupAcc.count).sum := sumMarkerCounts_markersOfGroups_eq _ _ _ hpos
      _ = sumGroupCounts (aggregateGroups (bucketCells g ps)) :=
          map_snd_count_sum _
      _ = sumCellCounts (bucketCells g ps) := aggregateGroups_sum _
      _ = ps.length := bucketCells_sum g ps

theorem cluster_markers_ne_nil_min1 (ps : List DiffPixel) (g : Nat) (r : ℚ)
    (h : ps ≠ []) : cluster_markers ps g 1 r ≠ [] := by
  intro hnil
  have := cluster_markers_sum_min1 ps g r
  rw [hnil] at this
  simp only [sumMarkerCounts, List.map_nil, List.sum_nil] at this
  exact h (List.length_eq_zero.mp this.symm)

theorem cluster_markers_chebyshev (ps : List DiffPixel) (g cmin : Nat) (r : ℚ)
    (hps : ∀ p ∈ ps, coordsBounded p) :
    ∀ m ∈ cluster_markers ps g cmin r, ∃ q ∈ ps,
      |(q.x : ℚ) - m.x| ≤ m.radius ∧ |(q.y : ℚ) - m.y| ≤ m.radius := by
  intro m hm
  have hne : ps ≠ [] := by
    intro hnil
    rw [hnil, cluster_markers_nil] at hm
    exact absurd hm (List.not_mem_nil m)
  rw [cluster_markers_eq_of_ne_nil ps g cmin r hne] at hm
  have hm' := mem_sortByCountDesc m _ hm
  obtain ⟨gacc, hgacc, hmg⟩ := mem_markersOfGroups cmin r _ m hm'
  obtain ⟨gp, hgp, hsnd⟩ := List.mem_map.mp hgacc
  have hbox := aggregateGroups_box (bucketCells g ps) (fun q => q ∈ ps)
    (fun c hc => ⟨bucketCells_box g ps c hc,
      bucketCells_bounded g ps hps c hc⟩) gp hgp
  obtain ⟨q, hq, hqbox⟩ := hbox
  refine ⟨q, hq, ?_⟩
  rw [hmg]
  exact markerOfGroup_chebyshev r gacc q (hsnd ▸ hqbox)

/-! ### C2: marker containment (corrected) and count bound -/

/-- C2 as amended (`functional_correctness`): for every point cloud whose
coordinates fit in `u32` (as they always do in the Rust code) and all
parameters, every emitted marker has at least one differing pixel within
the axis-aligned square `|x − c_x| ≤ r`, `|y − c_y| ≤ r` around its center
(hence within Euclidean distance `√2·r`), and the total `count` over the
markers is at most the number of differing pixels.  The original claim's
Euclidean circle `(x−c_x)² + (y−c_y)² ≤ r²` does not hold in general (see
the counterexample). -/
theorem C2_amended (ps : List DiffPixel) (g cmin : Nat) (r : ℚ)
    (hps : ∀ p ∈ ps, coordsBounded p) :
    (∀ m ∈ cluster_markers ps g cmin r, ∃ q ∈ ps,
      |(q.x : ℚ) - m.x| ≤ m.radius ∧ |(q.y : ℚ) - m.y| ≤ m.radius) ∧
    sumMarkerCounts (cluster_markers ps g cmin r) ≤ ps.length :=
  ⟨cluster_markers_chebyshev ps g cmin r hps, cluster_markers_sum_le ps g cmin r⟩

/-- Witness for C2 at a concrete input. -/
theorem C2_witness :
    (∀ m ∈ cluster_markers [⟨5, 5⟩] 10 1 3, ∃ q ∈ ([⟨5, 5⟩] : List DiffPixel),
      |(q.x : ℚ) - m.x| ≤ m.radius ∧ |(q.y : ℚ) - m.y| ≤ m.radius) ∧
    sumMarkerCounts (cluster_markers [⟨5, 5⟩] 10 1 3) ≤
      ([⟨5, 5⟩] : List DiffPixel).length :=
  C2_amended [⟨5, 5⟩] 10 1 3 (by simp [coordsBounded])

theorem c2_groups_eq :
    aggregateGroups (bucketCells 1000 [⟨0, 0⟩, ⟨400, 400⟩]) =
      [(0, ⟨0, 400, 0, 400, 2⟩)] := by
  decide

theorem c2_markers_eq :
    cluster_markers [⟨0, 0⟩, ⟨400, 400⟩] 1000 1 1 =
      [markerOfGroup 1 ⟨0, 400, 0, 400, 2⟩] := by
  rw [cluster_markers_eq_of_ne_nil _ _ _ _ (by simp), c2_groups_eq]
  simp [markersOfGroups, sortByCountDesc, insertByCountDesc]

/-- C2 counterexample: on the cloud `[(0,0), (400,400)]` with grid size
1000, `min_cluster = 1`, `min_radius = 1`, the single emitted marker has
center `(200, 200)` and radius `260`, yet both pixels lie at squared
distance `80000 > 260² = 67600` from the center — no differing pixel lies
inside the Euclidean circle. -/
theorem C2_counterexample :
    ∃ m ∈ cluster_markers [⟨0, 0⟩, ⟨400, 400⟩] 1000 1 1,
      ∀ p ∈ ([⟨0, 0⟩, ⟨400, 400⟩] : List DiffPixel),
        ¬ (((p.x : ℚ) - m.x) ^ 2 + ((p.y : ℚ) - m.y) ^ 2 ≤ m.radius ^ 2) := by
  refine ⟨markerOfGroup 1 ⟨0, 400, 0, 400, 2⟩,
    by rw [c2_markers_eq]; exact List.mem_singleton.mpr rfl, ?_⟩
  intro p hp
  rcases List.mem_cons.mp hp with hp | hp
  · subst hp
    norm_num [markerOfGroup, max_def]
  · rcases List.mem_cons.mp hp with hp | hp
    · subst hp
      norm_num [markerOfGroup, max_def]
    · exact absurd hp (List.not_mem_nil p)

/-! ### C9: marker totals in the sharp pipeline -/

/-- C9 (`functional_correctness`): in the sharp pipeline shared by
`compute_diff_simple` and `check_diff_simple` (cluster preset
`min_cluster = 1`), the marker list is nonempty exactly when
`diff_count > 0`, `has_diff` is `true` exactly when the marker list is
nonempty, and the marker counts sum to `diff_count` exactly. -/
theorem C9_marker_totals (a b : Nat → Nat) (w h t : Nat) :
    ((diff_simple_result a b w h t).markers ≠ [] ↔
      0 < (diff_simple_result a b w h t).diff_count) ∧
    ((diff_simple_result a b w h t).has_diff = true ↔
      (diff_simple_result a b w h t).markers ≠ []) ∧
    sumMarkerCounts (diff_simple_result a b w h t).markers =
      (diff_simple_result a b w h t).diff_count := by
  have hmk : (diff_simple_result a b w h t).markers =
      cluster_markers (diff_simple_pixels a b w h t) 200 1 300 := rfl
  have hct : (diff_simple_result a b w h t).diff_count =
      (diff_simple_pixels a b w h t).length := rfl
  have hhd : (diff_simple_result a b w h t).has_diff =
      decide (0 < (diff_simple_pixels a b w h t).length) := rfl
  rw [hmk, hct, hhd]
  constructor
  · constructor
    · intro hne
      cases hp : diff_simple_pixels a b w h t with
      | nil =>
        rw [hp, cluster_markers_nil] at hne
        exact absurd rfl hne
      | cons p l => simp [hp]
    · intro hpos
      have hne : diff_simple_pixels a b w h t ≠ [] := by
        intro hnil
        rw [hnil] at hpos
        simp at hpos
      exact cluster_markers_ne_nil_min1 _ 200 300 hne
  constructor
  · constructor
    · intro hd
      have hpos : 0 < (diff_simple_pixels a b w h t).length :=
        of_decide_eq_true hd
      have hne : diff_simple_pixels a b w h t ≠ [] := by
        intro hnil
        rw [hnil] at hpos
        simp at hpos
      exact cluster_markers_ne_nil_min1 _ 200 300 hne
    · intro hne
      cases hp : diff_simple_pixels a b w h t with
      | nil =>
        rw [hp, cluster_markers_nil] at hne
        exact absurd rfl hne
      | cons p l => simp [hp]
  · exact cluster_markers_sum_min1 _ 200 300

/-- Witness for C9 at a concrete input. -/
theorem C9_witness :
    sumMarkerCounts (diff_simple_result (fun _ => 0) (fun _ => 255) 1 1 10).markers =
      (diff_simple_result (fun _ => 0) (fun _ => 255) 1 1 10).diff_count :=
  (C9_marker_totals (fun _ => 0) (fun _ => 255) 1 1 10).2.2

/-! ### PackBits: loop-to-bulk characterization (used by C8 and C10) -/

theorem writeRange_zero (dst : Nat → Nat) (d : Nat) (f : Nat → Nat) :
    writeRange dst d 0 f = dst := by
  funext i
  simp only [writeRange]
  rw [if_neg (by omega)]

theorem writeRange_outside (dst : Nat → Nat) (d k : Nat) (f : Nat → Nat)
    (i : Nat) (h : ¬ (d ≤ i ∧ i < d + k)) : writeRange dst d k f i = dst i :=
  if_neg h

theorem writeRange_congr (dst : Nat → Nat) (d k : Nat) (f g : Nat → Nat)
    (h : ∀ j, j < k → f j = g j) : writeRange dst d k f = writeRange dst d k g := by
  funext i
  simp only [writeRange]
  by_cases hi : d ≤ i ∧ i < d + k
  · rw [if_pos hi, if_pos hi, h (i - d) (by omega)]
  · rw [if_neg hi, if_neg hi]

theorem writeRange_shift (dst : Nat → Nat) (d k v : Nat) (g f : Nat → Nat)
    (hv : v = f 0) (hg : ∀ j, g j = f (j + 1)) :
    writeRange (writeByte dst d v) (d + 1) k g = writeRange dst d (k + 1) f := by
  funext i
  simp only [writeRange, writeByte]
  by_cases h1 : d + 1 ≤ i ∧ i < d + 1 + k
  · rw [if_pos h1, if_pos (by omega), hg, show i - (d + 1) + 1 = i - d by omega]
  · rw [if_neg h1]
    by_cases h2 : i = d
    · subst h2
      rw [if_pos rfl, if_pos (by omega), hv, Nat.sub_self]
    · rw [if_neg h2, if_neg (by omega)]

theorem copyLit_eq (src : Nat → Nat) (src_end endI : Nat) :
    ∀ fuel s d dst, endI - d ≤ fuel →
      copyLit src src_end endI dst s d =
        (writeRange dst d (min (endI - d) (src_end - s)) (fun j => src (s + j)),
         min (endI - d) (src_end - s)) := by
  intro fuel
  induction fuel with
  | zero =>
    intro s d dst hf
    rw [copyLit, if_neg (by omega), show min (endI - d) (src_end - s) = 0
      by omega, writeRange_zero]
  | succ fuel ih =>
    intro s d dst hf
    by_cases h : d < endI ∧ s < src_end
    · rw [copyLit, if_pos h, ih (s + 1) (d + 1) (writeByte dst d (src s))
        (by omega)]
      have hk : min (endI - (d + 1)) (src_end - (s + 1)) + 1 =
          min (endI - d) (src_end - s) := by omega
      refine Prod.ext ?_ (by simp only []; omega)
      show writeRange (writeByte dst d (src s)) (d + 1)
          (min (endI - (d + 1)) (src_end - (s + 1)))
          (fun j => src (s + 1 + j)) = _
      rw [writeRange_shift dst d _ (src s) (fun j => src (s + 1 + j))
        (fun j => src (s + j)) rfl
        (fun j => congrArg src (by omega)), hk]
    · rw [copyLit, if_neg h, show min (endI - d) (src_end - s) = 0 by omega,
        writeRange_zero]

theorem fillRun_eq (v endI : Nat) :
    ∀ fuel d dst, endI - d ≤ fuel →
      fillRun dst v endI d = writeRange dst d (endI - d) (fun _ => v) := by
  intro fuel
  induction fuel with
  | zero =>
    intro d dst hf
    rw [fillRun, if_neg (by omega), show endI - d = 0 by omega, writeRange_zero]
  | succ fuel ih =>
    intro d dst hf
    by_cases h : d < endI
    · rw [fillRun, if_pos h, ih (d + 1) (writeByte dst d v) (by omega),
        writeRange_shift dst d _ v (fun _ => v) (fun _ => v) rfl (fun _ => rfl),
        show endI - (d + 1) + 1 = endI - d by omega]
    · rw [fillRun, if_neg h, show endI - d = 0 by omega, writeRange_zero]

theorem toI8_range (b : Nat) : -128 ≤ toI8 b ∧ toI8 b ≤ 127 := by
  simp only [toI8]
  by_cases h : b % 256 < 128
  · rw [if_pos h]
    constructor <;> omega
  · rw [if_neg h]
    have : b % 256 < 256 := Nat.mod_lt b (by omega)
    constructor <;> omega

theorem packbitsLoop_eq_spec (src : Nat → Nat) (src_end dst_end : Nat) :
    ∀ fuel s d dst, src_end - s ≤ fuel →
      packbitsLoop src src_end dst_end dst s d =
        packbitsSpecLoop src src_end dst_end dst s d := by
  intro fuel
  induction fuel with
  | zero =>
    intro s d dst hf
    rw [packbitsLoop, packbitsSpecLoop, dif_neg (by omega), if_neg (by omega)]
  | succ fuel ih =>
    intro s d dst hf
    by_cases h : d < dst_end ∧ s < src_end
    · rw [packbitsLoop, packbitsSpecLoop, dif_pos h, if_pos h]
      simp only []
      by_cases hn : 0 ≤ toI8 (src s)
      · conv_lhs => rw [if_pos hn]
        conv_rhs => rw [if_pos hn]
        rw [copyLit_eq src src_end (min (d + ((toI8 (src s)).toNat + 1)) dst_end)
          (min (d + ((toI8 (src s)).toNat + 1)) dst_end) (s + 1) d dst
          (Nat.sub_le _ _)]
        simp only []
        have hk : min (min (d + ((toI8 (src s)).toNat + 1)) dst_end - d)
            (src_end - (s + 1)) =
            min ((toI8 (src s)).toNat + 1)
              (min (src_end - (s + 1)) (dst_end - d)) := by
          have := h.1
          omega
        rw [hk]
        refine ih _ _ _ ?_
        omega
      · conv_lhs => rw [if_neg (show ¬ 0 ≤ toI8 (src s) from hn)]
        conv_rhs => rw [if_neg (show ¬ 0 ≤ toI8 (src s) from hn)]
        by_cases h128 : toI8 (src s) = -128
        · have hlt : ¬ (-128 < toI8 (src s)) := by omega
          conv_lhs => rw [if_neg hlt]
          conv_rhs => rw [if_pos h128]
          refine ih _ _ _ ?_
          omega
        · have hlt : -128 < toI8 (src s) := by
            have := (toI8_range (src s)).1
            omega
          conv_lhs => rw [if_pos hlt]
          conv_rhs => rw [if_neg h128]
          by_cases hs1 : s + 1 < src_end
          · conv_lhs => rw [if_pos hs1]
            conv_rhs => rw [if_pos hs1]
            rw [fillRun_eq (src (s + 1))
              (min (d + (1 - toI8 (src s)).toNat) dst_end)
              (min (d + (1 - toI8 (src s)).toNat) dst_end) d dst
              (Nat.sub_le _ _)]
            have hk : min (d + (1 - toI8 (src s)).toNat) dst_end - d =
                min (1 - toI8 (src s)).toNat (dst_end - d) := by
              have := h.1
              omega
            have hend : min (d + (1 - toI8 (src s)).toNat) dst_end =
                d + min (1 - toI8 (src s)).toNat (dst_end - d) := by
              have := h.1
              omega
            rw [hk, hend]
            refine ih _ _ _ ?_
            omega
          · conv_lhs => rw [if_neg hs1]
            conv_rhs => rw [if_neg hs1]
    · rw [packbitsLoop, packbitsSpecLoop, dif_neg h, if_neg h]

theorem specLoop_frame (src : Nat → Nat) (src_end dst_end : Nat) :
    ∀ fuel s d dst, src_end - s ≤ fuel → ∀ i, i < d ∨ dst_end ≤ i →
      packbitsSpecLoop src src_end dst_end dst s d i = dst i := by
  intro fuel
  induction fuel with
  | zero =>
    intro s d dst hf i hi
    rw [packbitsSpecLoop, if_neg (by omega)]
  | succ fuel ih =>
    intro s d dst hf i hi
    by_cases h : d < dst_end ∧ s < src_end
    · rw [packbitsSpecLoop, if_pos h]
      simp only []
      by_cases hn : 0 ≤ toI8 (src s)
      · rw [if_pos hn]
        generalize hkk : min ((toI8 (src s)).toNat + 1)
          (min (src_end - (s + 1)) (dst_end - d)) = k
        have hkb : k ≤ dst_end - d := by omega
        have step := ih (s + 1 + k) (d + k)
          (writeRange dst d k fun j => src (s + 1 + j)) (by omega) i (by omega)
        rw [step]
        exact writeRange_outside dst d k _ i (by omega)
      · rw [if_neg hn]
        by_cases h128 : toI8 (src s) = -128
        · rw [if_pos h128]
          exact ih (s + 1) d dst (by omega) i hi
        · rw [if_neg h128]
          by_cases hs1 : s + 1 < src_end
          · rw [if_pos hs1]
            generalize hkk : min (1 - toI8 (src s)).toNat (dst_end - d) = k
            have hkb : k ≤ dst_end - d := by omega
            have step := ih (s + 2) (d + k)
              (writeRange dst d k fun _ => src (s + 1)) (by omega) i (by omega)
            rw [step]
            exact writeRange_outside dst d k _ i (by omega)
          · rw [if_neg hs1]
    · rw [packbitsSpecLoop, if_neg h]

theorem specLoop_reads (src src' : Nat → Nat) (src_end dst_end : Nat) :
    ∀ fuel s d dst, src_end - s ≤ fuel →
      (∀ j, s ≤ j → j < src_end → src j = src' j) →
      packbitsSpecLoop src src_end dst_end dst s d =
        packbitsSpecLoop src' src_end dst_end dst s d := by
  intro fuel
  induction fuel with
  | zero =>
    intro s d dst hf hagree
    have hc : ¬ (d < dst_end ∧ s < src_end) := by omega
    conv_lhs => rw [packbitsSpecLoop, if_neg hc]
    conv_rhs => rw [packbitsSpecLoop, if_neg hc]
  | succ fuel ih =>
    intro s d dst hf hagree
    by_cases h : d < dst_end ∧ s < src_end
    · conv_lhs => rw [packbitsSpecLoop, if_pos h]
      conv_rhs => rw [packbitsSpecLoop, if_pos h]
      simp only []
      have hhead : src' s = src s := (hagree s (le_refl s) h.2).symm
      conv_rhs => rw [hhead]
      by_cases hn : 0 ≤ toI8 (src s)
      · conv_lhs => rw [if_pos hn]
        conv_rhs => rw [if_pos hn]
        generalize hkk : min ((toI8 (src s)).toNat + 1)
          (min (src_end - (s + 1)) (dst_end - d)) = k
        have hkb : k ≤ src_end - (s + 1) := by omega
        have hw : (writeRange dst d k fun j => src (s + 1 + j)) =
            (writeRange dst d k fun j => src' (s + 1 + j)) :=
          writeRange_congr dst d k _ _
            (fun j hj => hagree (s + 1 + j) (by omega) (by omega))
        rw [← hw]
        exact ih (s + 1 + k) (d + k) _ (by omega)
          (fun j h1 h2 => hagree j (by omega) h2)
      · conv_lhs => rw [if_neg (show ¬ 0 ≤ toI8 (src s) from hn)]
        conv_rhs => rw [if_neg (show ¬ 0 ≤ toI8 (src s) from hn)]
        by_cases h128 : toI8 (src s) = -128
        · conv_lhs => rw [if_pos h128]
          conv_rhs => rw [if_pos h128]
          exact ih (s + 1) d dst (by omega)
            (fun j h1 h2 => hagree j (by omega) h2)
        · conv_lhs => rw [if_neg h128]
          conv_rhs => rw [if_neg h128]
          by_cases hs1 : s + 1 < src_end
          · conv_lhs => rw [if_pos hs1]
            conv_rhs => rw [if_pos hs1]
            have hv : src' (s + 1) = src (s + 1) :=
              (hagree (s + 1) (by omega) hs1).symm
            conv_rhs => rw [hv]
            exact ih (s + 2) _ _ (by omega)
              (fun j h1 h2 => hagree j (by omega) h2)
          · conv_lhs => rw [if_neg hs1]
            conv_rhs => rw [if_neg hs1]
    · conv_lhs => rw [packbitsSpecLoop, if_neg h]
      conv_rhs => rw [packbitsSpecLoop, if_neg h]

/-! ### C8: PackBits semantics refinement -/

/-- C8 (`functional_correctness`): `decode_packbits` computes exactly the
PackBits semantics the specification describes (signed 8-bit headers:
literal copy of `n + 1` bytes for `n ≥ 0`, replication of the next byte
`1 - n` times for `-127 ≤ n ≤ -1`, no-op for `n = -128`, stopping as soon
as either window is exhausted and truncating at the destination boundary),
and every destination byte outside the destination window keeps its prior
value. -/
theorem C8_packbits_semantics (src : Nat → Nat) (src_start src_len : Nat)
    (dst : Nat → Nat) (dst_start dst_len : Nat) :
    decode_packbits src src_start src_len dst dst_start dst_len =
      packbits_spec src src_start src_len dst dst_start dst_len ∧
    (∀ i, i < dst_start ∨ dst_start + dst_len ≤ i →
      decode_packbits src src_start src_len dst dst_start dst_len i = dst i) := by
  constructor
  · exact packbitsLoop_eq_spec src (src_start + src_len) (dst_start + dst_len)
      (src_start + src_len) src_start dst_start dst (by omega)
  · intro i hi
    rw [decode_packbits, packbitsLoop_eq_spec src (src_start + src_len)
      (dst_start + dst_len) (src_start + src_len) src_start dst_start dst
      (by omega)]
    exact specLoop_frame src (src_start + src_len) (dst_start + dst_len)
      (src_start + src_len) src_start dst_start dst (by omega) i hi

/-- Witness for C8 at a concrete input. -/
theorem C8_witness :
    decode_packbits (fun _ => 3) 0 2 (fun _ => 9) 0 2 =
      packbits_spec (fun _ => 3) 0 2 (fun _ => 9) 0 2 ∧
    decode_packbits (fun _ => 3) 0 2 (fun _ => 9) 0 2 7 = 9 :=
  ⟨(C8_packbits_semantics (fun _ => 3) 0 2 (fun _ => 9) 0 2).1,
   ((C8_packbits_semantics (fun _ => 3) 0 2 (fun _ => 9) 0 2).2 7
     (Or.inr (by decide))).trans rfl⟩

/-! ### C10: PackBits memory safety (window confinement) -/

/-- C10 (`safety`): the PackBits decoder touches only the declared
windows — every destination index outside `[dst_start, dst_start+dst_len)`
keeps its prior value, and the result depends only on the source bytes
inside `[src_start, src_start+src_len)`.  Together with the precondition
`src_start+src_len ≤ |src|` and `dst_start+dst_len ≤ |dst|` this is
exactly the in-bounds guarantee of the Rust code: every slice access is
inside the slices, for every source content including over-long runs. -/
theorem C10_packbits_confinement (src : Nat → Nat) (src_start src_len : Nat)
    (dst : Nat → Nat) (dst_start dst_len : Nat) :
    (∀ i, i < dst_start ∨ dst_start + dst_len ≤ i →
      decode_packbits src src_start src_len dst dst_start dst_len i = dst i) ∧
    (∀ src', (∀ j, src_start ≤ j → j < src_start + src_len → src j = src' j) →
      decode_packbits src src_start src_len dst dst_start dst_len =
        decode_packbits src' src_start src_len dst dst_start dst_len) := by
  constructor
  · intro i hi
    rw [decode_packbits, packbitsLoop_eq_spec src (src_start + src_len)
      (dst_start + dst_len) (src_start + src_len) src_start dst_start dst
      (by omega)]
    exact specLoop_frame src (src_start + src_len) (dst_start + dst_len)
      (src_start + src_len) src_start dst_start dst (by omega) i hi
  · intro src' hagree
    rw [decode_packbits, decode_packbits,
      packbitsLoop_eq_spec src (src_start + src_len) (dst_start + dst_len)
        (src_start + src_len) src_start dst_start dst (by omega),
      packbitsLoop_eq_spec src' (src_start + src_len) (dst_start + dst_len)
        (src_start + src_len) src_start dst_start dst (by omega)]
    exact specLoop_reads src src' (src_start + src_len) (dst_start + dst_len)
      (src_start + src_len) src_start dst_start dst (by omega) hagree

/-- Witness for C10 at a concrete input. -/
theorem C10_witness :
    decode_packbits (fun _ => 7) 0 2 (fun _ => 9) 0 2 10 = 9 ∧
    decode_packbits (fun _ => 7) 0 2 (fun _ => 9) 0 2 =
      decode_packbits (fun j => if j < 2 then 7 else 0) 0 2 (fun _ => 9) 0 2 :=
  ⟨((C10_packbits_confinement (fun _ => 7) 0 2 (fun _ => 9) 0 2).1 10
      (Or.inr (by decide))).trans rfl,
   (C10_packbits_confinement (fun _ => 7) 0 2 (fun _ => 9) 0 2).2
     (fun j => if j < 2 then 7 else 0)
     (fun j _ hj2 => by simp [hj2])⟩

/-! ### C3: the fallback decoder panics on a zero-channel header -/

/-- C3 (`safety`): the claim says `decode_psd_fallback` never panics on any
input.  The code violates this: on a well-formed header that declares
**zero channels** (signature `8BPS`, version 1, 1×1, depth 8, RGB, raw
compression), the channel-reading loop runs zero iterations, and the
compositing step indexes `channel_data[0]` on an empty vector — an
unguarded out-of-bounds slice index, i.e. a Rust panic, not a structured
error. -/
theorem C3_decoder_panics :
    decode_psd_fallback c3FailingInput = .error .panicked := rfl

/-! ### C4: the image cache -/

theorem mapFind_isSome_iff (m : List (String × CachedImage)) (k : String) :
    (mapFind m k).isSome = true ↔ k ∈ m.map Prod.fst := by
  induction m with
  | nil => simp [mapFind]
  | cons kv m ih =>
    by_cases hk : kv.1 = k
    · simp [mapFind, hk]
    · rw [show mapFind (kv :: m) k = mapFind m k by
        rw [show (kv :: m) = ((kv.1, kv.2) :: m) by rfl, mapFind, if_neg hk]]
      simp only [List.map_cons, List.mem_cons, ih]
      constructor
      · exact Or.inr
      · rintro (h | h)
        · exact absurd h.symm hk
        · exact h

theorem mapRemove_not_mem (m : List (String × CachedImage)) (k : String)
    (h : k ∉ m.map Prod.fst) : mapRemove m k = m := by
  induction m with
  | nil => rfl
  | cons kv m ih =>
    simp only [List.map_cons, List.mem_cons, not_or] at h
    rw [show (kv :: m) = ((kv.1, kv.2) :: m) by rfl, mapRemove,
      if_neg (fun he => h.1 he.symm), ih h.2]

theorem mapRemove_head (m : List (String × CachedImage)) (o : String)
    (rest : List String) (hm : m.map Prod.fst = o :: rest) (ho : o ∉ rest) :
    (mapRemove m o).map Prod.fst = rest := by
  cases m with
  | nil => simp at hm
  | cons kv m =>
    simp only [List.map_cons, List.cons.injEq] at hm
    rw [show (kv :: m) = ((kv.1, kv.2) :: m) by rfl, mapRemove, if_pos hm.1,
      mapRemove_not_mem m o (by rw [hm.2]; exact ho), hm.2]

theorem mapInsert_keys_not_mem (m : List (String × CachedImage)) (k : String)
    (v : CachedImage) (h : k ∉ m.map Prod.fst) :
    (mapInsert m k v).map Prod.fst = m.map Prod.fst ++ [k] := by
  induction m with
  | nil => rfl
  | cons kv m ih =>
    simp only [List.map_cons, List.mem_cons, not_or] at h
    rw [show (kv :: m) = ((kv.1, kv.2) :: m) by rfl, mapInsert,
      if_neg (fun he => h.1 he.symm)]
    simp only [List.map_cons, ih h.2, List.cons_append]

theorem insert_no_evict (c : ImageCache) (k : String) (v : CachedImage)
    (h : c.cache.length < c.max_size) :
    (c.insert k v).order = c.order ++ [k] ∧
    (c.insert k v).cache = mapInsert c.cache k v ∧
    (c.insert k v).max_size = c.max_size := by
  simp only [ImageCache.insert]
  rw [if_neg (by omega)]
  exact ⟨rfl, rfl, rfl⟩

theorem insert_evict (c : ImageCache) (k : String) (v : CachedImage)
    (o : String) (rest : List String) (h : c.max_size ≤ c.cache.length)
    (ho : c.order = o :: rest) :
    (c.insert k v).order = rest ++ [k] ∧
    (c.insert k v).cache = mapInsert (mapRemove c.cache o) k v ∧
    (c.insert k v).max_size = c.max_size := by
  simp only [ImageCache.insert]
  rw [if_pos (by omega), ho]
  exact ⟨rfl, rfl, rfl⟩

theorem insert_inv (c : ImageCache) (k : String) (v : CachedImage)
    (hInv : CacheInv c) (hk : k ∉ c.order) : CacheInv (c.insert k v) := by
  obtain ⟨hkeys, hnodup, hlen, hcap⟩ := hInv
  by_cases hev : c.max_size ≤ c.cache.length
  · have hlen' : c.cache.length = c.order.length := by
      rw [← hkeys, List.length_map]
    cases horder : c.order with
    | nil =>
      rw [horder] at hlen'
      simp only [List.length_nil] at hlen'
      omega
    | cons o rest =>
      obtain ⟨h1, h2, h3⟩ := insert_evict c k v o rest hev horder
      have honodup : o ∉ rest := by
        rw [horder] at hnodup
        exact (List.nodup_cons.mp hnodup).1
      have hkeys' : (mapRemove c.cache o).map Prod.fst = rest :=
        mapRemove_head c.cache o rest (by rw [hkeys, horder]) honodup
      have hknotin : k ∉ rest := by
        intro hmem
        exact hk (by rw [horder]; exact List.mem_cons_of_mem o hmem)
      refine ⟨?_, ?_, ?_, ?_⟩
      · rw [h1, h2, mapInsert_keys_not_mem _ k v (by rw [hkeys']; exact hknotin),
          hkeys']
      · rw [h1]
        simp only [List.nodup_append, List.nodup_cons, List.not_mem_nil,
          not_false_iff, List.nodup_nil, and_true, true_and]
        refine ⟨(List.nodup_cons.mp (horder ▸ hnodup)).2, ?_⟩
        intro x hx hx'
        simp only [List.mem_singleton] at hx'
        exact hknotin (hx' ▸ hx)
      · rw [h1, h3, List.length_append, List.length_singleton]
        rw [horder] at hlen
        simp only [List.length_cons] at hlen
        omega
      · rw [h3]
        exact hcap
  · obtain ⟨h1, h2, h3⟩ := insert_no_evict c k v (by omega)
    have hknotkeys : k ∉ c.cache.map Prod.fst := by
      rw [hkeys]
      exact hk
    refine ⟨?_, ?_, ?_, ?_⟩
    · rw [h1, h2, mapInsert_keys_not_mem _ k v hknotkeys, hkeys]
    · rw [h1]
      simp only [List.nodup_append, List.nodup_cons, List.not_mem_nil,
        not_false_iff, List.nodup_nil, and_true, true_and]
      refine ⟨hnodup, ?_⟩
      intro x hx hx'
      simp only [List.mem_singleton] at hx'
      exact hk (hx' ▸ hx)
    · rw [h1, h3, List.length_append, List.length_singleton]
      have : c.cache.length = c.order.length := by
        rw [← hkeys, List.length_map]
      omega
    · rw [h3]
      exact hcap

theorem insert_order_mem (c : ImageCache) (k : String) (v : CachedImage)
    (x : String) (hx : x ∈ (c.insert k v).order) : x ∈ c.order ∨ x = k := by
  by_cases hev : c.max_size ≤ c.cache.length
  · cases horder : c.order with
    | nil =>
      have hins : (c.insert k v).order = c.order ++ [k] := by
        simp only [ImageCache.insert]
        rw [if_pos (by omega)]
        conv_lhs => rw [horder]
      rw [hins, horder] at hx
      simp only [List.nil_append, List.mem_singleton] at hx
      exact Or.inr hx
    | cons o rest =>
      obtain ⟨h1, _, _⟩ := insert_evict c k v o rest hev horder
      rw [h1] at hx
      rcases List.mem_append.mp hx with hx | hx
      · exact Or.inl (List.mem_cons_of_mem o hx)
      · simp only [List.mem_singleton] at hx
        exact Or.inr hx
  · obtain ⟨h1, _, _⟩ := insert_no_evict c k v (by omega)
    rw [h1] at hx
    rcases List.mem_append.mp hx with hx | hx
    · exact Or.inl hx
    · simp only [List.mem_singleton] at hx
      exact Or.inr hx

theorem clear_inv (c : ImageCache) (hInv : CacheInv c) :
    CacheInv (c.clear) := by
  obtain ⟨_, _, _, hcap⟩ := hInv
  exact ⟨rfl, List.nodup_nil, by simp [ImageCache.clear], hcap⟩

theorem runOps_inv (ops : List CacheOp) :
    ∀ c, CacheInv c → (insertedKeys ops).Nodup →
      (∀ k ∈ insertedKeys ops, k ∉ c.order) → CacheInv (runOps c ops) := by
  induction ops with
  | nil => intro c hInv _ _; exact hInv
  | cons op ops ih =>
    intro c hInv hnodup hfresh
    cases op with
    | insert k v =>
      have hkeys : insertedKeys (CacheOp.insert k v :: ops) =
          k :: insertedKeys ops := rfl
      rw [hkeys] at hnodup hfresh
      have hk : k ∉ c.order := hfresh k (List.mem_cons_self k _)
      refine ih (c.insert k v) (insert_inv c k v hInv hk)
        (List.nodup_cons.mp hnodup).2 ?_
      intro k' hk'
      intro hmem
      rcases insert_order_mem c k v k' hmem with hmem | hmem
      · exact hfresh k' (List.mem_cons_of_mem k hk') hmem
      · exact (List.nodup_cons.mp hnodup).1 (hmem ▸ hk')
    | lookup k =>
      exact ih c hInv hnodup hfresh
    | clear =>
      refine ih c.clear (clear_inv c hInv) hnodup ?_
      intro k _ hmem
      exact absurd hmem (List.not_mem_nil k)

theorem insert_max_size (c : ImageCache) (k : String) (v : CachedImage) :
    (c.insert k v).max_size = c.max_size := by
  simp only [ImageCache.insert]
  split
  · split
    · rfl
    · rfl
  · rfl

theorem runOps_max_size (ops : List CacheOp) :
    ∀ c, (runOps c ops).max_size = c.max_size := by
  induction ops with
  | nil => intro c; rfl
  | cons op ops ih =>
    intro c
    cases op with
    | insert k v =>
      show (runOps (c.insert k v) ops).max_size = c.max_size
      rw [ih, insert_max_size]
    | lookup k => exact ih c
    | clear => exact ih c.clear

theorem new_inv (cap : Nat) (hcap : 1 ≤ cap) : CacheInv (ImageCache.new cap) :=
  ⟨rfl, List.nodup_nil, by simp [ImageCache.new], hcap⟩

theorem pure_inserts (cap : Nat) (hcap : 1 ≤ cap) :
    ∀ kvs : List (String × CachedImage), (kvs.map Prod.fst).Nodup →
      (runOps (ImageCache.new cap)
        (kvs.map fun kv => CacheOp.insert kv.1 kv.2)).order =
        (kvs.map Prod.fst).drop (kvs.length - cap) ∧
      CacheInv (runOps (ImageCache.new cap)
        (kvs.map fun kv => CacheOp.insert kv.1 kv.2)) := by
  intro kvs
  induction kvs using List.reverseRecOn with
  | nil =>
    intro _
    exact ⟨by simp [runOps, ImageCache.new], new_inv cap hcap⟩
  | append_singleton kvs kv ih =>
    intro hnodup
    rw [List.map_append] at hnodup
    have h1 : (kvs.map Prod.fst).Nodup := (List.nodup_append.mp hnodup).1
    have h2 : kv.1 ∉ kvs.map Prod.fst := by
      intro hmem
      have hd := (List.nodup_append.mp hnodup).2.2
      exact hd hmem (by simp)
    obtain ⟨horder, hInv⟩ := ih h1
    have hmaps : ((kvs ++ [kv]).map fun kv => CacheOp.insert kv.1 kv.2) =
        (kvs.map fun kv => CacheOp.insert kv.1 kv.2) ++
          [CacheOp.insert kv.1 kv.2] := by
      rw [List.map_append]
      rfl
    have hrun : runOps (ImageCache.new cap)
        ((kvs ++ [kv]).map fun kv => CacheOp.insert kv.1 kv.2) =
        (runOps (ImageCache.new cap)
          (kvs.map fun kv => CacheOp.insert kv.1 kv.2)).insert kv.1 kv.2 := by
      rw [hmaps, runOps, List.foldl_append]
      rfl
    set s := runOps (ImageCache.new cap)
      (kvs.map fun kv => CacheOp.insert kv.1 kv.2) with hs
    have hmax : s.max_size = cap := runOps_max_size _ _
    have hclen : s.cache.length = s.order.length := by
      rw [← hInv.1, List.length_map]
    have holen : s.order.length = kvs.length - (kvs.length - cap) := by
      rw [horder, List.length_drop, List.length_map]
    have hknotin : kv.1 ∉ s.order := by
      intro hmem
      rw [horder] at hmem
      exact h2 (List.drop_subset _ _ hmem)
    have hInv' : CacheInv (s.insert kv.1 kv.2) :=
      insert_inv s kv.1 kv.2 hInv hknotin
    rw [hrun]
    refine ⟨?_, hInv'⟩
    rw [List.map_append, List.length_append]
    by_cases hn : kvs.length < cap
    · have hne : s.cache.length < s.max_size := by
        rw [hclen, holen, hmax]
        omega
      obtain ⟨ho, _, _⟩ := insert_no_evict s kv.1 kv.2 hne
      rw [ho, horder, show kvs.length - cap = 0 by omega,
        show kvs.length + [kv].length - cap = 0 by simp; omega]
      simp
    · have hev : s.max_size ≤ s.cache.length := by
        rw [hclen, holen, hmax]
        omega
      cases hso : s.order with
      | nil =>
        rw [hso] at holen
        simp only [List.length_nil] at holen
        omega
      | cons o rest =>
        obtain ⟨ho, _, _⟩ := insert_evict s kv.1 kv.2 o rest hev hso
        rw [ho]
        have hrest : rest = (kvs.map Prod.fst).drop (kvs.length - cap + 1) := by
          have : (s.order).tail = rest := by rw [hso]; rfl
          rw [← this, horder, List.tail_drop]
        have hdrop : ((kvs.map Prod.fst) ++ [kv].map Prod.fst).drop
            (kvs.length + [kv].length - cap) =
            (kvs.map Prod.fst).drop (kvs.length - cap + 1) ++ [kv.1] := by
          have hlen : kvs.length + [kv].length - cap = kvs.length - cap + 1 := by
            simp only [List.length_singleton]
            omega
          rw [hlen, List.drop_append_of_le_length (by
            rw [List.length_map]
            omega)]
          rfl
        rw [hdrop, hrest]

/-- C4 counterexample: two inserts of the same key into a fresh cache of
capacity 2 leave the map with 1 entry but the order queue with 2 — the
invariant `|map| = |queue|` fails for repeated keys, because `insert`
pushes the key to the queue unconditionally while the map deduplicates. -/
theorem C4_counterexample :
    ¬ ((runOps (ImageCache.new 2)
        [CacheOp.insert "a" emptyEntry, CacheOp.insert "a" emptyEntry]).cache.length =
      (runOps (ImageCache.new 2)
        [CacheOp.insert "a" emptyEntry, CacheOp.insert "a" emptyEntry]).order.length) := by
  decide

/-- C4 as amended (`invariants`): for every sequence of insert, lookup and
clear operations on a cache of positive capacity in which the inserted
keys are pairwise distinct (as when callers insert only on lookup miss),
`|map| = |queue|` holds and both stay bounded by the capacity; and after
any sequence of insertions with pairwise distinct keys, the retained keys
are exactly the most recently inserted ones (the last `min(n, capacity)`
keys, evicted front-first). -/
theorem C4_amended :
    (∀ cap ops, 1 ≤ cap → (insertedKeys ops).Nodup →
      (runOps (ImageCache.new cap) ops).cache.length =
        (runOps (ImageCache.new cap) ops).order.length ∧
      (runOps (ImageCache.new cap) ops).cache.length ≤ cap ∧
      (runOps (ImageCache.new cap) ops).order.length ≤ cap) ∧
    (∀ cap (kvs : List (String × CachedImage)), 1 ≤ cap →
      (kvs.map Prod.fst).Nodup →
      (runOps (ImageCache.new cap)
        (kvs.map fun kv => CacheOp.insert kv.1 kv.2)).order =
        (kvs.map Prod.fst).drop (kvs.length - cap) ∧
      (∀ k, ((runOps (ImageCache.new cap)
          (kvs.map fun kv => CacheOp.insert kv.1 kv.2)).get k).isSome = true ↔
        k ∈ (kvs.map Prod.fst).drop (kvs.length - cap))) := by
  constructor
  · intro cap ops hcap hnodup
    have hInv := runOps_inv ops (ImageCache.new cap) (new_inv cap hcap) hnodup
      (fun k _ hmem => absurd hmem (List.not_mem_nil k))
    have hmax : (runOps (ImageCache.new cap) ops).max_size = cap :=
      runOps_max_size _ _
    have hclen : (runOps (ImageCache.new cap) ops).cache.length =
        (runOps (ImageCache.new cap) ops).order.length := by
      rw [← hInv.1, List.length_map]
    have holen := hInv.2.2.1
    rw [hmax] at holen
    exact ⟨hclen, by omega, holen⟩
  · intro cap kvs hcap hnodup
    obtain ⟨horder, hInv⟩ := pure_inserts cap hcap kvs hnodup
    refine ⟨horder, ?_⟩
    intro k
    rw [ImageCache.get, mapFind_isSome_iff, hInv.1, horder]

/-- Witness for C4 (amended) at a concrete input. -/
theorem C4_witness :
    ((runOps (ImageCache.new 1) [CacheOp.insert "k" emptyEntry]).cache.length =
      (runOps (ImageCache.new 1) [CacheOp.insert "k" emptyEntry]).order.length ∧
     (runOps (ImageCache.new 1) [CacheOp.insert "k" emptyEntry]).cache.length ≤ 1 ∧
     (runOps (ImageCache.new 1) [CacheOp.insert "k" emptyEntry]).order.length ≤ 1) ∧
    ((runOps (ImageCache.new 1)
        ([("k", emptyEntry)].map fun kv => CacheOp.insert kv.1 kv.2)).order =
      ([("k", emptyEntry)].map Prod.fst).drop ([("k", emptyEntry)].length - 1) ∧
     (∀ k, ((runOps (ImageCache.new 1)
        ([("k", emptyEntry)].map fun kv => CacheOp.insert kv.1 kv.2)).get k).isSome = true ↔
       k ∈ ([("k", emptyEntry)].map Prod.fst).drop ([("k", emptyEntry)].length - 1))) :=
  ⟨C4_amended.1 1 [CacheOp.insert "k" emptyEntry] (by decide) (by decide),
   C4_amended.2 1 [("k", emptyEntry)] (by decide) (by decide)⟩

end Kenban
